import Mathlib

/-!
# Verification of the `p3` lexer (`src/lexer.rs`)

A shallow embedding of the token model and the scanner of the `p3`
repository. The Rust `Vec<char>` buffer becomes a `List Char`, the cursor
is a `Nat`, panics (index out of bounds, failed assertions, `unimplemented!`)
become explicit `LexError` values, and the `loop`/`while` constructs become
fuel-indexed structural recursions (the fuel is always instantiated large
enough; running out of fuel is a distinguished error value that never
occurs on the executions the theorems talk about).
-/

namespace P3

/-- The token type, one constructor per variant of `enum Token` in
`src/lexer.rs`. `StrLit.tags` (a `HashSet<char>` in the source) is modelled
as a duplicate-free list in insertion order. -/
inductive Token where
  | Ident (s : String)
  | LeftParen
  | RightParen
  | LeftCurly
  | RightCurly
  | LeftSquare
  | RightSquare
  | LeftAngle
  | RightAngle
  | Colon
  | ColonEquals
  | SemiColon
  | Comma
  | Equal
  | DoubleEqual
  | Asterisk
  | AsteriskEquals
  | DoubleAsterisk
  | DoubleAsteriskEquals
  | Ampersand
  | AmpersandEquals
  | Pipe
  | PipeEquals
  | ThinArrow
  | Minus
  | MinusEquals
  | Plus
  | PlusEquals
  | Percent
  | PercentEquals
  | Slash
  | SlashEquals
  | DoubleSlash
  | DoubleSlashEquals
  | NotEqual
  | Dot
  | NewLine
  | LeftShift
  | LeftShiftEquals
  | RightShift
  | RightShiftEquals
  | Indent (n : Nat)
  | StrLit (tags : List Char) (val : String)
  | Comment (text : String)
  | IntLit (s : String)
  | FloatLit (s : String)
  | BooleanLit (b : Bool)
  | And
  | As
  | Assert
  | Break
  | Class
  | Continue
  | Def
  | Del
  | Elif
  | Else
  | Except
  | Finally
  | For
  | From
  | Global
  | If
  | Import
  | In
  | Is
  | Lambda
  | None
  | Nonlocal
  | Not
  | Or
  | Pass
  | Raise
  | Return
  | Try
  | While
  | With
  | Yield
  | DoubleAmpersand
  | DoublePipe

/-- The errors a scan can hit.  In the Rust source every one of these is a
panic: `outOfBounds` is `self.chars[self.pos]` past the end, `identEmpty`
is the `assert_ne!` in `take_ident`, `badIndent` is the
`assert_eq!(count % 4, 0)`, `badEscape` is the `panic!` on an unknown
escaped character, `badCharCode` covers the `from_str_radix`/`from_u32`
unwraps, `expectedEqual` is the `assert_eq!` in the `'!'` arm and
`unimplemented` the catch-all `unimplemented!` arm.  `fuel` marks fuel
exhaustion of the embedding and never occurs with the fuel the top-level
entry points supply. -/
inductive LexError where
  | fuel
  | outOfBounds
  | identEmpty
  | badIndent (count : Nat)
  | badEscape (c : Char)
  | badCharCode
  | expectedEqual (c : Char)
  | unimplemented (c : Char)
deriving DecidableEq, Repr

/-- `val.replace('\'', "\\'")` from `Token::write_to`'s `StrLit` arm. -/
def escapeQuote (s : String) : String :=
  ⟨(s.data.map (fun c => if c = '\'' then ['\\', '\''] else [c])).flatten⟩

/-- `Token::write_to`: the exact text each token writes to the sink.
`write_str!(e, s)` in the source appends one trailing space; arms using
plain `write_str!(e)` do not. -/
def Token.write : Token → String
  | .Ident d => d ++ " "
  | .LeftParen => "("
  | .RightParen => ")"
  | .LeftCurly => "\x7b"
  | .RightCurly => "\x7d"
  | .LeftSquare => "["
  | .RightSquare => "]"
  | .LeftAngle => "<"
  | .RightAngle => ">"
  | .Colon => ":"
  | .ColonEquals => ":="
  | .SemiColon => ";"
  | .Comma => ","
  | .Equal => "="
  | .DoubleEqual => "=="
  | .Asterisk => "*"
  | .AsteriskEquals => "*="
  | .DoubleAsterisk => "**"
  | .DoubleAsteriskEquals => "**="
  | .Ampersand => "&"
  | .AmpersandEquals => "&="
  | .Pipe => "|"
  | .PipeEquals => "|="
  | .ThinArrow => "->"
  | .Minus => "-"
  | .MinusEquals => "-="
  | .Plus => "+"
  | .PlusEquals => "+="
  | .Percent => "%"
  | .PercentEquals => "%="
  | .Slash => "/"
  | .SlashEquals => "/="
  | .DoubleSlash => "//"
  | .DoubleSlashEquals => "//="
  | .NotEqual => "!="
  | .Dot => "."
  | .NewLine => "\n"
  | .LeftShift => "<<"
  | .LeftShiftEquals => "<<="
  | .RightShift => ">>"
  | .RightShiftEquals => ">>="
  | .Indent n => String.join (List.replicate n "    ")
  | .StrLit tags val => String.mk tags ++ "'" ++ escapeQuote val ++ "'"
  | .Comment text => "#" ++ text
  | .IntLit n => n ++ " "
  | .FloatLit n => n ++ " "
  | .BooleanLit b => (if b then "True" else "False") ++ " "
  | .And => "and "
  | .As => "as "
  | .Assert => "assert "
  | .Break => "break "
  | .Class => "class "
  | .Continue => "continue "
  | .Def => "def "
  | .Del => "del "
  | .Elif => "elif "
  | .Else => "else"
  | .Except => "except "
  | .Finally => "finally "
  | .For => "for "
  | .From => "from "
  | .Global => "global "
  | .If => "if "
  | .Import => "import "
  | .In => "in "
  | .Is => "is "
  | .Lambda => "lambda "
  | .None => "None "
  | .Nonlocal => "nonlocal "
  | .Not => "not "
  | .Or => "or "
  | .Pass => "pass "
  | .Raise => "raise "
  | .Return => "return "
  | .Try => "try "
  | .While => "while "
  | .With => "with "
  | .Yield => "yield "
  | .DoubleAmpersand => "and "
  | .DoublePipe => "or "

/-- Serializing a whole token sequence: each token written with `write_to`,
concatenated (the driver in `main.rs` writes the tokens back to back). -/
def writeAll (ts : List Token) : String :=
  String.join (ts.map Token.write)

/-- `struct Lexer` from `src/lexer.rs`. -/
structure Lexer where
  chars : List Char
  pos : Nat
  start_of_line : Bool
deriving DecidableEq, Repr

/-- `Lexer::new`. -/
def Lexer.new (chars : List Char) : Lexer :=
  { chars := chars, pos := 0, start_of_line := true }

/-- `Lexer::peek_char`: `self.chars[self.pos]`, a panic out of bounds. -/
def Lexer.peek_char (l : Lexer) : Except LexError Char :=
  match l.chars.get? l.pos with
  | some c => .ok c
  | none => .error .outOfBounds

/-- Cursor advance, the `self.pos += 1` step of `take_char`. -/
def Lexer.advance (l : Lexer) : Lexer :=
  { l with pos := l.pos + 1 }

/-- `Lexer::take_char`: return the character at the cursor and advance. -/
def Lexer.take_char (l : Lexer) : Except LexError (Char × Lexer) :=
  match l.chars.get? l.pos with
  | some c => .ok (c, l.advance)
  | none => .error .outOfBounds

/-- `Lexer::chars_left`: `self.chars.len() - self.pos` (reachable states
always have `pos ≤ len`, so the truncated subtraction agrees with Rust). -/
def Lexer.chars_left (l : Lexer) : Nat :=
  l.chars.length - l.pos

/-- The character class `'a'..='z' | 'A'..='Z'` used by the scanner. -/
def isAlphaChar (c : Char) : Bool :=
  (c ≤ 'z' && 'a' ≤ c) || (c ≤ 'Z' && 'A' ≤ c)

/-- The character class `'0'..='9'`. -/
def isDigitChar (c : Char) : Bool :=
  c ≤ '9' && '0' ≤ c

/-- The class `'a'..='z' | 'A'..='Z' | '0'..='9' | '_'` of `take_ident`. -/
def isIdentChar (c : Char) : Bool :=
  isAlphaChar c || isDigitChar c || c == '_'

/-- Rust `char::is_ascii_whitespace`: space, tab, newline, form feed,
carriage return. -/
def isAsciiWhitespace (c : Char) : Bool :=
  c == ' ' || c == '\t' || c == '\n' || c == '\x0C' || c == '\r'

/-- The loop of `Lexer::take_ident`: advance while the peeked character is
an identifier character (peeking past the end is a panic). -/
def take_ident_loop : Nat → Lexer → Except LexError Lexer
  | 0, _ => .error .fuel
  | fu+1, l => do
    let c ← l.peek_char
    if isIdentChar c then take_ident_loop fu l.advance else .ok l

/-- `Lexer::take_ident`: record the start index, run the loop, assert the
run is nonempty, return the slice `chars[i..pos]`. -/
def take_ident (fu : Nat) (l : Lexer) : Except LexError (List Char × Lexer) := do
  let l' ← take_ident_loop fu l
  if l'.pos = l.pos then .error .identEmpty
  else .ok ((l.chars.drop l.pos).take (l'.pos - l.pos), l')

/-- The space-counting loop of the indentation arm of `next`:
`while self.peek_char() == ' ' { count += 1; self.take_char(); }`. -/
def take_spaces : Nat → Nat → Lexer → Except LexError (Nat × Lexer)
  | 0, _, _ => .error .fuel
  | fu+1, count, l => do
    let c ← l.peek_char
    if c == ' ' then take_spaces fu (count + 1) l.advance else .ok (count, l)

/-- `Lexer::take_comment`: collect characters until end of input or a
newline (the newline is not consumed). -/
def take_comment : Nat → String → Lexer → Except LexError (String × Lexer)
  | 0, _, _ => .error .fuel
  | fu+1, out, l =>
    if l.chars_left = 0 then .ok (out, l)
    else do
      let c ← l.peek_char
      if c == '\n' then .ok (out, l)
      else take_comment fu (out.push c) l.advance

/-- `Lexer::take_number`: consume digits, the marker letters `x`/`b`, and
dots (any dot flips the `float` flag) until end of input or a
non-numeric character. -/
def take_number : Nat → Bool → String → Lexer → Except LexError (Token × Lexer)
  | 0, _, _, _ => .error .fuel
  | fu+1, float, out, l =>
    if l.chars_left = 0 then
      .ok (if float then .FloatLit out else .IntLit out, l)
    else do
      let c ← l.peek_char
      if isDigitChar c || c == 'x' || c == 'b' then
        take_number fu float (out.push c) l.advance
      else if c == '.' then
        take_number fu true (out.push c) l.advance
      else
        .ok (if float then .FloatLit out else .IntLit out, l)

/-- `HashSet::insert` on the tag set, keeping insertion order. -/
def insertTag (tags : List Char) (c : Char) : List Char :=
  if c ∈ tags then tags else tags ++ [c]

/-- The tag loop of `take_str_lit`: take characters into the tag set until
a quote is reached; returns the tags, the quote character and the state. -/
def take_tags : Nat → List Char → Lexer → Except LexError (List Char × Char × Lexer)
  | 0, _, _ => .error .fuel
  | fu+1, tags, l => do
    let (c, l') ← l.take_char
    if c == '\'' || c == '"' then .ok (tags, c, l')
    else take_tags fu (insertTag tags c) l'

/-- Value of a hexadecimal digit, `u32::from_str_radix(_, 16)` per digit,
stated over char codes: `0`-`9` are codes 48-57 (value code − 48), `a`-`f`
are 97-102 (code − 97 + 10 = code − 87), `A`-`F` are 65-70 (code − 55). -/
def hexDigitVal (c : Char) : Option Nat :=
  let n := c.toNat
  if 48 ≤ n ∧ n ≤ 57 then some (n - 48)
  else if 97 ≤ n ∧ n ≤ 102 then some (n - 87)
  else if 65 ≤ n ∧ n ≤ 70 then some (n - 55)
  else none

/-- Value of an octal digit, `u32::from_str_radix(_, 8)` per digit:
`0`-`7` are char codes 48-55. -/
def octDigitVal (c : Char) : Option Nat :=
  let n := c.toNat
  if 48 ≤ n ∧ n ≤ 55 then some (n - 48) else none

/-- The body loop of `take_str_lit`.  A backslash always (re)arms
`escape_next` (the first match arm in the source), an escaped character is
decoded (`\x`/`\0` read two further digits), the closing quote ends the
loop, anything else is pushed verbatim. -/
def take_str_body : Nat → Char → Bool → String → Lexer → Except LexError (String × Lexer)
  | 0, _, _, _, _ => .error .fuel
  | fu+1, quote, escape_next, out, l => do
    let (c, l1) ← l.take_char
    if c == '\\' then take_str_body fu quote true out l1
    else if escape_next then
      if c == '\'' || c == '"' then take_str_body fu quote false (out.push c) l1
      else if c == 'n' then take_str_body fu quote false (out.push '\n') l1
      else if c == 'r' then take_str_body fu quote false (out.push '\r') l1
      else if c == 't' then take_str_body fu quote false (out.push '\t') l1
      else if c == 'x' then do
        let (c1, l2) ← l1.take_char
        let (c2, l3) ← l2.take_char
        match hexDigitVal c1, hexDigitVal c2 with
        | some a, some b =>
            take_str_body fu quote false (out.push (Char.ofNat (16 * a + b))) l3
        | _, _ => .error .badCharCode
      else if c == '0' then do
        let (c1, l2) ← l1.take_char
        let (c2, l3) ← l2.take_char
        match octDigitVal c1, octDigitVal c2 with
        | some a, some b =>
            take_str_body fu quote false (out.push (Char.ofNat (8 * a + b))) l3
        | _, _ => .error .badCharCode
      else .error (.badEscape c)
    else if c == quote then .ok (out, l1)
    else take_str_body fu quote false (out.push c) l1

/-- `Lexer::take_str_lit`: collect the tags and the quote, then the body. -/
def take_str_lit (fu : Nat) (l : Lexer) : Except LexError (Token × Lexer) := do
  let (tags, quote, l1) ← take_tags fu [] l
  let (val, l2) ← take_str_body fu quote false "" l1
  .ok (.StrLit tags val, l2)

/-- `Lexer::parse_ident`: the keyword table.  The `"False" | "false"` arm
returning `BooleanLit(true)` is transcribed exactly as it stands in the
source. -/
def parse_ident (s : String) : Token :=
  match s with
  | "and" => .And
  | "as" => .As
  | "assert" => .Assert
  | "break" => .Break
  | "class" => .Class
  | "continue" => .Continue
  | "def" => .Def
  | "del" => .Del
  | "elif" => .Elif
  | "else" => .Else
  | "except" => .Except
  | "False" | "false" => .BooleanLit true
  | "finally" => .Finally
  | "for" => .For
  | "from" => .From
  | "global" => .Global
  | "if" => .If
  | "import" => .Import
  | "in" => .In
  | "is" => .Is
  | "lambda" => .Lambda
  | "None" => .None
  | "nonlocal" => .Nonlocal
  | "not" => .Not
  | "or" => .Or
  | "pass" => .Pass
  | "raise" => .Raise
  | "return" => .Return
  | "True" | "true" => .BooleanLit true
  | "try" => .Try
  | "while" => .While
  | "with" => .With
  | "yield" => .Yield
  | _ => .Ident s

/-- `matches!(ret, Token::NewLine)`, used to re-arm the start-of-line
flag. -/
def Token.isNewLine : Token → Bool
  | .NewLine => true
  | _ => false

/-- The body of the big `match self.take_char()` in `<Lexer as
Iterator>::next`, for one taken character `c`.  `l` is the state before
the take (used by the arms that do `self.pos -= 1`), `l1` the state after.
`.inl (t, l')` is `break t`, `.inr l''` is `continue`. -/
def nextTokCore (c : Char) (l l1 : Lexer) : Except LexError (Token × Lexer ⊕ Lexer) :=
  if c == ' ' && l.start_of_line then do
    let (count, l2) ← take_spaces (l1.chars.length + 1) 1 l1
    if count = 1 then .ok (.inr l2)
    else if count % 4 ≠ 0 then .error (.badIndent count)
    else .ok (.inl (.Indent (count / 4), l2))
  else if c == '\n' then .ok (.inl (.NewLine, l1))
  else if isAsciiWhitespace c then .ok (.inr l1)
  else if isAlphaChar c then do
    let q ← l1.peek_char
    if q == '\'' || q == '"' then do
      let (t, l') ← take_str_lit (l.chars.length + 1) l
      .ok (.inl (t, l'))
    else do
      let (w, l') ← take_ident (l.chars.length + 1) l
      .ok (.inl (parse_ident (String.mk w), l'))
  else if c == '_' then do
    let (w, l') ← take_ident (l.chars.length + 1) l
    .ok (.inl (parse_ident (String.mk w), l'))
  else if c == '(' then .ok (.inl (.LeftParen, l1))
  else if c == ')' then .ok (.inl (.RightParen, l1))
  else if c == '{' then .ok (.inl (.LeftCurly, l1))
  else if c == '}' then .ok (.inl (.RightCurly, l1))
  else if c == '[' then .ok (.inl (.LeftSquare, l1))
  else if c == ']' then .ok (.inl (.RightSquare, l1))
  else if c == ':' then do
    let q ← l1.peek_char
    if q == '=' then .ok (.inl (.ColonEquals, l1.advance))
    else .ok (.inl (.Colon, l1))
  else if c == ';' then .ok (.inl (.SemiColon, l1))
  else if c == ',' then .ok (.inl (.Comma, l1))
  else if c == '&' then do
    let q ← l1.peek_char
    if q == '=' then .ok (.inl (.AmpersandEquals, l1.advance))
    else if q == '&' then .ok (.inl (.DoubleAmpersand, l1.advance))
    else .ok (.inl (.Ampersand, l1))
  else if c == '|' then do
    let q ← l1.peek_char
    if q == '=' then .ok (.inl (.PipeEquals, l1.advance))
    else if q == '|' then .ok (.inl (.DoublePipe, l1.advance))
    else .ok (.inl (.Pipe, l1))
  else if c == '-' then do
    let q ← l1.peek_char
    if q == '=' then .ok (.inl (.MinusEquals, l1.advance))
    else if q == '>' then .ok (.inl (.ThinArrow, l1.advance))
    else .ok (.inl (.Minus, l1))
  else if c == '+' then do
    let q ← l1.peek_char
    if q == '=' then .ok (.inl (.PlusEquals, l1.advance))
    else .ok (.inl (.Plus, l1))
  else if c == '%' then do
    let q ← l1.peek_char
    if q == '=' then .ok (.inl (.PercentEquals, l1.advance))
    else .ok (.inl (.Percent, l1))
  else if c == '=' then do
    let q ← l1.peek_char
    if q == '=' then .ok (.inl (.DoubleEqual, l1.advance))
    else .ok (.inl (.Equal, l1))
  else if c == '!' then do
    let q ← l1.peek_char
    if q == '=' then .ok (.inl (.NotEqual, l1.advance))
    else .error (.expectedEqual q)
  else if c == '/' then do
    let q ← l1.peek_char
    if q == '/' then do
      let l2 := l1.advance
      let q2 ← l2.peek_char
      if q2 == '=' then .ok (.inl (.DoubleSlashEquals, l2.advance))
      else .ok (.inl (.DoubleSlash, l2))
    else .ok (.inl (.Slash, l1))
  else if c == '*' then do
    let q ← l1.peek_char
    if q == '*' then do
      let l2 := l1.advance
      let q2 ← l2.peek_char
      if q2 == '=' then .ok (.inl (.DoubleAsteriskEquals, l2.advance))
      else .ok (.inl (.DoubleAsterisk, l2))
    else if q == '=' then .ok (.inl (.AsteriskEquals, l1.advance))
    else .ok (.inl (.Asterisk, l1))
  else if c == '<' then do
    let q ← l1.peek_char
    if q == '<' then .ok (.inl (.LeftShift, l1.advance))
    else .ok (.inl (.LeftAngle, l1))
  else if c == '>' then do
    let q ← l1.peek_char
    if q == '>' then .ok (.inl (.RightShift, l1.advance))
    else .ok (.inl (.RightAngle, l1))
  else if c == '#' then do
    let (text, l') ← take_comment (l1.chars.length + 1) "" l1
    .ok (.inl (.Comment text, l'))
  else if c == '.' then do
    let q ← l1.peek_char
    if isDigitChar q then do
      let (t, l') ← take_number (l.chars.length + 1) false "" l
      .ok (.inl (t, l'))
    else .ok (.inl (.Dot, l1))
  else if isDigitChar c then do
    let (t, l') ← take_number (l.chars.length + 1) false "" l
    .ok (.inl (t, l'))
  else if c == '\'' || c == '"' then do
    let (t, l') ← take_str_lit (l.chars.length + 1) l
    .ok (.inl (t, l'))
  else .error (.unimplemented c)

/-- `<Lexer as Iterator>::next`: `None` when the buffer is exhausted, else
take a character, run the match, loop on `continue`, and on `break` set
the start-of-line flag from the produced token. -/
def nextTok : Nat → Lexer → Except LexError (Option Token × Lexer)
  | 0, _ => .error .fuel
  | fu+1, l =>
    if l.chars_left = 0 then .ok (none, l)
    else do
      let (c, l1) ← l.take_char
      let r ← nextTokCore c l l1
      match r with
      | .inl (t, l') => .ok (some t, { l' with start_of_line := t.isNewLine })
      | .inr l2 => nextTok fu l2

/-- Driving the iterator to exhaustion, collecting the tokens. -/
def scanAux : Nat → Lexer → Except LexError (List Token)
  | 0, _ => .error .fuel
  | fu+1, l => do
    let (o, l') ← nextTok (l.chars.length + 1) l
    match o with
    | none => .ok []
    | some t => do
      let ts ← scanAux fu l'
      .ok (t :: ts)

/-- Scan a whole input string: `Lexer::new` on its characters, iterated to
exhaustion. -/
def scan (s : String) : Except LexError (List Token) :=
  scanAux (s.length + 1) (Lexer.new s.data)

/-! ## The canonical token classes used by the amended round-trip claim -/

/-- The character class `take_number` consumes without setting the float
flag: digits and the marker letters. -/
def isNumLitChar (c : Char) : Bool :=
  isDigitChar c || c == 'x' || c == 'b'

/-- Everything `take_number` consumes. -/
def isNumOrDot (c : Char) : Bool :=
  isNumLitChar c || c == '.'

/-- The spellings `take_ident` can produce when entered from the scanner:
nonempty, every character an identifier character, and the first one a
letter or underscore (a digit would enter `take_number` instead). -/
def validIdentChars : List Char → Bool
  | [] => false
  | c :: cs => (isAlphaChar c || c == '_') && (c :: cs).all isIdentChar

/-- The spellings `take_number` can produce as an `IntLit` when entered
from the scanner: nonempty, leading digit, only digits and marker
letters (no dot). -/
def validIntChars : List Char → Bool
  | [] => false
  | c :: cs => isDigitChar c && (c :: cs).all isNumLitChar

/-- The spellings `take_number` can produce as a `FloatLit`: nonempty,
every character numeric-class, at least one dot, and started either on a
digit or on a dot immediately followed by a digit (the two scanner entry
points). -/
def validFloatChars : List Char → Bool
  | [] => false
  | c :: cs =>
      (isDigitChar c || (c == '.' && (match cs with
        | d :: _ => isDigitChar d
        | [] => false))) &&
      (c :: cs).all isNumOrDot && (c :: cs).any (· == '.')

/-- `true` iff the token is an `Ident`. -/
def Token.isIdentTok : Token → Bool
  | .Ident _ => true
  | _ => false

/-- The token `take_number` returns for a given float flag and text. -/
def numTok (float : Bool) (s : String) : Token :=
  if float then .FloatLit s else .IntLit s

/-- Word-like tokens: serialized with a trailing space and rescanned via
`take_ident`/`take_number`, so they can sit next to anything.  `Else` is
excluded (its `write_to` arm has no trailing space), and so are the
custom `DoubleAmpersand`/`DoublePipe` (serialized as the keywords
`and`/`or`) and `BooleanLit false` (the scanner never produces it and
`False` rescans to `BooleanLit true`). -/
def wordlike : Token → Bool
  | .Ident s => validIdentChars s.data && (parse_ident s).isIdentTok
  | .IntLit s => validIntChars s.data
  | .FloatLit s => validFloatChars s.data
  | .BooleanLit b => b
  | .And | .As | .Assert | .Break | .Class | .Continue | .Def | .Del | .Elif
  | .Except | .Finally | .For | .From | .Global | .If | .Import | .In | .Is
  | .Lambda | .None | .Nonlocal | .Not | .Or | .Pass | .Raise | .Return
  | .Try | .While | .With | .Yield => true
  | _ => false

/-- The punctuation whose scanner arm needs no lookahead: these tokens
rescan to themselves wherever they stand. -/
def safePunct : Token → Bool
  | .LeftParen | .RightParen | .LeftCurly | .RightCurly
  | .LeftSquare | .RightSquare | .SemiColon | .Comma => true
  | _ => false

/-- `true` iff the token is an `Indent`. -/
def Token.isIndent : Token → Bool
  | .Indent _ => true
  | _ => false

/-- Canonical token sequences, tracking whether the scanner would be at
the start of a logical line (`sol`): every token is word-like, safe
punctuation, a newline, or an indent; an `Indent n` has `n ≥ 1`, appears
only where `sol` holds (at the start or right after a `NewLine`), and is
followed by at least one further non-`Indent` token. -/
def goodSeqAux : Bool → List Token → Bool
  | _, [] => true
  | sol, t :: rest =>
    match t with
    | .Indent n => sol && decide (1 ≤ n) &&
        (match rest with
         | [] => false
         | r :: _ => !r.isIndent) &&
        goodSeqAux false rest
    | .NewLine => goodSeqAux true rest
    | _ => (wordlike t || safePunct t) && goodSeqAux false rest

/-- Canonical token sequences (scan state starts at a line start). -/
def goodSeq (ts : List Token) : Bool :=
  goodSeqAux true ts

/-- The character sequence the serialized token list concatenates to. -/
def writeAllData (ts : List Token) : List Char :=
  (ts.map (fun t => (Token.write t).data)).flatten

/-- What one successful step of the `match` body of `next` guarantees,
for a character `c` taken at the cursor of `l`: a `break` (`inl`) strictly
advances the cursor and keeps the buffer, and if it produced `Indent n`
then `n ≥ 1` and the step consumed exactly `4n` spaces, starting at the
cursor on a start-of-line state and stopped by a non-space character; a
`continue` (`inr`) strictly advances the cursor, keeps the buffer and
stays within bounds. -/
def CoreOut (c : Char) (l : Lexer) (r : Token × Lexer ⊕ Lexer) : Prop :=
  (∀ t l₂, r = .inl (t, l₂) → l.pos < l₂.pos ∧ l₂.chars = l.chars ∧
     ∀ n, t = .Indent n → 1 ≤ n ∧ c = ' ' ∧ l.start_of_line = true ∧
        (∀ i, i < 4 * n → l.chars[l.pos + i]? = some ' ') ∧
        (∃ d, l.chars[l.pos + 4 * n]? = some d ∧ d ≠ ' ') ∧
        l₂.pos = l.pos + 4 * n) ∧
  (∀ l₂, r = .inr l₂ → l.pos < l₂.pos ∧ l₂.chars = l.chars ∧
    l₂.pos ≤ l.chars.length ∧ l₂.start_of_line = l.start_of_line)

/-! ## Claim C2: boolean literal resolution and serialization -/

/-- C2 (code bug evidence): the `"False" | "false"` arm of `parse_ident`
resolves to `BooleanLit(true)` — the resolved value is `true`, not `false`
as the spec states — while `write_to` writes `True `/`False ` according to
the stored boolean, so a scanned `False` serializes back as `True `. -/
theorem C2_false_resolves_to_true :
    parse_ident "False" = Token.BooleanLit true ∧
    parse_ident "false" = Token.BooleanLit true ∧
    parse_ident "True" = Token.BooleanLit true ∧
    parse_ident "true" = Token.BooleanLit true ∧
    Token.write (.BooleanLit true) = "True " ∧
    Token.write (.BooleanLit false) = "False " ∧
    scan "False " = .ok [.BooleanLit true] :=
  ⟨rfl, rfl, rfl, rfl, rfl, rfl, rfl⟩

/-! ## Claim C3: operator serialization -/

/-- C3 (counterexample): the token scanned from `&&` is `DoubleAmpersand`,
and `write_to` renders it as `and ` (the Python keyword with a trailing
space), not as the symbol `&&`; likewise `DoublePipe` renders as `or `. -/
theorem C3_counterexample :
    scan "&& " = .ok [.DoubleAmpersand] ∧
    Token.write .DoubleAmpersand = "and " ∧
    ("and " : String) ≠ "&&" ∧
    scan "|| " = .ok [.DoublePipe] ∧
    Token.write .DoublePipe = "or " ∧
    ("or " : String) ≠ "||" :=
  ⟨rfl, rfl, by decide, rfl, rfl, by decide⟩

/-- C3 (amended): every punctuation and operator variant writes a fixed
literal string: its own symbol for all of them except the two custom
doubled logical operators, which are translated to the keywords `and `
and `or `. -/
theorem C3_operator_write_fixed :
    Token.write .LeftParen = "(" ∧
    Token.write .RightParen = ")" ∧
    Token.write .LeftCurly = "\x7b" ∧
    Token.write .RightCurly = "\x7d" ∧
    Token.write .LeftSquare = "[" ∧
    Token.write .RightSquare = "]" ∧
    Token.write .LeftAngle = "<" ∧
    Token.write .RightAngle = ">" ∧
    Token.write .Colon = ":" ∧
    Token.write .ColonEquals = ":=" ∧
    Token.write .SemiColon = ";" ∧
    Token.write .Comma = "," ∧
    Token.write .Equal = "=" ∧
    Token.write .DoubleEqual = "==" ∧
    Token.write .Asterisk = "*" ∧
    Token.write .AsteriskEquals = "*=" ∧
    Token.write .DoubleAsterisk = "**" ∧
    Token.write .DoubleAsteriskEquals = "**=" ∧
    Token.write .Ampersand = "&" ∧
    Token.write .AmpersandEquals = "&=" ∧
    Token.write .Pipe = "|" ∧
    Token.write .PipeEquals = "|=" ∧
    Token.write .ThinArrow = "->" ∧
    Token.write .Minus = "-" ∧
    Token.write .MinusEquals = "-=" ∧
    Token.write .Plus = "+" ∧
    Token.write .PlusEquals = "+=" ∧
    Token.write .Percent = "%" ∧
    Token.write .PercentEquals = "%=" ∧
    Token.write .Slash = "/" ∧
    Token.write .SlashEquals = "/=" ∧
    Token.write .DoubleSlash = "//" ∧
    Token.write .DoubleSlashEquals = "//=" ∧
    Token.write .NotEqual = "!=" ∧
    Token.write .Dot = "." ∧
    Token.write .LeftShift = "<<" ∧
    Token.write .LeftShiftEquals = "<<=" ∧
    Token.write .RightShift = ">>" ∧
    Token.write .RightShiftEquals = ">>=" ∧
    Token.write .DoubleAmpersand = "and " ∧
    Token.write .DoublePipe = "or " := by
  repeat' constructor

/-! ## Claim C4: longest-match for the shift operators -/

/-- C4 (code bug evidence): the `'<'`/`'>'` arms of `next` only look for a
doubled symbol and never for a following `=`, so `<<=` scans as
`LeftShift` followed by `Equal` (and `>>=` as `RightShift` then `Equal`);
the `LeftShiftEquals`/`RightShiftEquals` variants that `Token` declares
and `write_to` renders are never produced by the scanner. -/
theorem C4_shift_assign_split :
    scan "<<= " = .ok [.LeftShift, .Equal] ∧
    scan ">>= " = .ok [.RightShift, .Equal] ∧
    Token.write .LeftShiftEquals = "<<=" ∧
    Token.write .RightShiftEquals = ">>=" :=
  ⟨rfl, rfl, rfl, rfl⟩

/-! ## Claim C5: keyword precedence -/

/-- C5 (counterexample): the keyword table matches `"None"` with a capital
letter, so the lowercase identifier text `none` resolves to an `Ident`
token, not to the `None` keyword token. -/
theorem C5_counterexample :
    parse_ident "none" = Token.Ident "none" ∧
    Token.Ident "none" ≠ Token.None :=
  ⟨rfl, by simp⟩

/-- C5 (amended): every reserved word of the table — with `None`
capitalized, all others lowercase — resolves to its keyword token, never
to `Ident`. -/
theorem C5_keywords_resolve :
    parse_ident "and" = Token.And ∧
    parse_ident "as" = Token.As ∧
    parse_ident "assert" = Token.Assert ∧
    parse_ident "break" = Token.Break ∧
    parse_ident "class" = Token.Class ∧
    parse_ident "continue" = Token.Continue ∧
    parse_ident "def" = Token.Def ∧
    parse_ident "del" = Token.Del ∧
    parse_ident "elif" = Token.Elif ∧
    parse_ident "else" = Token.Else ∧
    parse_ident "except" = Token.Except ∧
    parse_ident "finally" = Token.Finally ∧
    parse_ident "for" = Token.For ∧
    parse_ident "from" = Token.From ∧
    parse_ident "global" = Token.Global ∧
    parse_ident "if" = Token.If ∧
    parse_ident "import" = Token.Import ∧
    parse_ident "in" = Token.In ∧
    parse_ident "is" = Token.Is ∧
    parse_ident "lambda" = Token.Lambda ∧
    parse_ident "None" = Token.None ∧
    parse_ident "nonlocal" = Token.Nonlocal ∧
    parse_ident "not" = Token.Not ∧
    parse_ident "or" = Token.Or ∧
    parse_ident "pass" = Token.Pass ∧
    parse_ident "raise" = Token.Raise ∧
    parse_ident "return" = Token.Return ∧
    parse_ident "try" = Token.Try ∧
    parse_ident "while" = Token.While ∧
    parse_ident "with" = Token.With ∧
    parse_ident "yield" = Token.Yield := by
  repeat' constructor

/-! ## Claim C6: the `0x1F + 3.14` scenario -/

/-- C6 (counterexample): `take_number` consumes only decimal digits, the
marker letters `x`/`b`, and dots — not the hex digit `F` — so scanning
`0x1F + 3.14` does not produce the sequence the spec claims. -/
theorem C6_counterexample :
    scan "0x1F + 3.14" ≠ .ok [.IntLit "0x1F", .Plus, .FloatLit "3.14"] := by
  have h : scan "0x1F + 3.14" =
      .ok [.IntLit "0x1", .Ident "F", .Plus, .FloatLit "3.14"] := rfl
  rw [h]
  intro hcon
  simp at hcon

/-- C6 (amended): scanning `0x1F + 3.14` stops the integer literal before
the hex digit `F`, which is then scanned as its own identifier:
the result is `[IntLit "0x1", Ident "F", Plus, FloatLit "3.14"]`. -/
theorem C6_hex_scenario :
    scan "0x1F + 3.14" = .ok [.IntLit "0x1", .Ident "F", .Plus, .FloatLit "3.14"] :=
  rfl

/-! ## Claim C8: unterminated string literal -/

/-- C8: on the input `'abc` the very first `next()` call runs
`take_str_lit` past the end of the buffer and fails with the
out-of-bounds error (the Rust panic a memory-safe reimplementation must
surface as an unterminated-literal error); the whole scan therefore fails
and no token is emitted. -/
theorem C8_unterminated_string :
    nextTok 5 (Lexer.new "'abc".data) = .error .outOfBounds ∧
    scan "'abc" = .error .outOfBounds :=
  ⟨rfl, rfl⟩

/-! ## Claim C9: unterminated comment -/

/-- C9 (counterexample): `take_comment` explicitly checks `chars_left()`
and returns at end of input, so a comment that reaches the end of the
input without a newline produces a `Comment` token and no error at all. -/
theorem C9_counterexample :
    scan "#abc" = .ok [.Comment "abc"] :=
  rfl

/-! ## Cursor and buffer utilities -/

theorem string_ext {s t : String} (h : s.data = t.data) : s = t :=
  congrArg String.mk h

theorem bind_ok {α β : Type} (x : α) (f : α → Except LexError β) :
    ((Except.ok x : Except LexError α) >>= f) = f x := rfl

theorem drop_cons {C : List Char} {p : Nat} {c : Char} {r : List Char}
    (h : C.drop p = c :: r) : C[p]? = some c ∧ C.drop (p + 1) = r := by
  constructor
  · have h0 := List.getElem?_drop C p 0
    rw [h] at h0
    simpa using h0.symm
  · have h1 : (C.drop p).drop 1 = r := by rw [h]; rfl
    rwa [List.drop_drop] at h1

theorem lt_length_of_getElem? {C : List Char} {p : Nat} {c : Char}
    (h : C[p]? = some c) : p < C.length := by
  by_contra hc
  rw [List.getElem?_eq_none_iff.mpr (by omega)] at h
  exact Option.noConfusion h

theorem peek_char_eq {l : Lexer} {c : Char}
    (h : l.chars[l.pos]? = some c) : l.peek_char = .ok c := by
  simp [Lexer.peek_char, h]

theorem take_char_eq {l : Lexer} {c : Char}
    (h : l.chars[l.pos]? = some c) : l.take_char = .ok (c, l.advance) := by
  simp [Lexer.take_char, h]

theorem chars_left_pos {l : Lexer} (h : l.pos < l.chars.length) :
    l.chars_left ≠ 0 := by
  simp only [Lexer.chars_left]
  omega

theorem chars_left_zero {l : Lexer} (h : l.chars.length ≤ l.pos) :
    l.chars_left = 0 := by
  simp only [Lexer.chars_left]
  omega

/-! ## Unfolding lemmas for the fuel-indexed entry points -/

theorem nextTok_succ (fu : Nat) (l : Lexer) :
    nextTok (fu + 1) l =
      if l.chars_left = 0 then .ok (none, l)
      else
        l.take_char >>= fun x =>
        match x with
        | (c, l1) =>
          nextTokCore c l l1 >>= fun r =>
          match r with
          | .inl (t, l') => .ok (some t, { l' with start_of_line := t.isNewLine })
          | .inr l2 => nextTok fu l2 := rfl

theorem scanAux_succ (fu : Nat) (l : Lexer) :
    scanAux (fu + 1) l =
      nextTok (l.chars.length + 1) l >>= fun x =>
      match x with
      | (o, l') =>
        match o with
        | none => .ok []
        | some t => scanAux fu l' >>= fun ts => .ok (t :: ts) := rfl

theorem scanAux_done (fu : Nat) (l : Lexer) (h : l.chars.length ≤ l.pos) :
    scanAux (fu + 1) l = .ok [] := by
  rw [scanAux_succ, nextTok_succ, if_pos (chars_left_zero h), bind_ok]

theorem scanAux_step {l l' : Lexer} {t : Token} {ts : List Token} (fu : Nat)
    (h1 : nextTok (l.chars.length + 1) l = .ok (some t, l'))
    (h2 : scanAux fu l' = .ok ts) :
    scanAux (fu + 1) l = .ok (t :: ts) := by
  rw [scanAux_succ, h1, bind_ok]
  show scanAux fu l' >>= (fun ts => .ok (t :: ts)) = _
  rw [h2, bind_ok]

/-! ## The comment loop -/

/-- `take_comment` on a newline-free suffix `u` of the buffer consumes it
whole and appends it to the accumulator. -/
theorem take_comment_spec :
    ∀ (u : List Char) (fu : Nat) (out : String) (l : Lexer),
    l.chars.drop l.pos = u →
    (∀ c ∈ u, c ≠ '\n') →
    u.length < fu →
    take_comment fu out l =
      .ok (⟨out.data ++ u⟩, { l with pos := l.pos + u.length }) := by
  intro u
  induction u with
  | nil =>
    intro fu out l hdrop _ hfu
    obtain ⟨fu', rfl⟩ : ∃ fu', fu = fu' + 1 := ⟨fu - 1, by omega⟩
    have hle : l.chars.length ≤ l.pos := List.drop_eq_nil_iff.mp hdrop
    simp only [take_comment, chars_left_zero hle, if_pos rfl]
    have hs : (⟨out.data ++ []⟩ : String) = out := string_ext (by simp)
    rw [hs]
    congr 1
  | cons c u' ih =>
    intro fu out l hdrop hnl hfu
    obtain ⟨fu', rfl⟩ : ∃ fu', fu = fu' + 1 := ⟨fu - 1, by omega⟩
    obtain ⟨hget, hdrop'⟩ := drop_cons hdrop
    have hlt : l.pos < l.chars.length := lt_length_of_getElem? hget
    have hcne : c ≠ '\n' := hnl c (by simp)
    rw [show take_comment (fu' + 1) out l =
        (if l.chars_left = 0 then .ok (out, l) else
          l.peek_char >>= fun c =>
            if c == '\n' then .ok (out, l)
            else take_comment fu' (out.push c) l.advance) from rfl,
      if_neg (chars_left_pos hlt), peek_char_eq hget, bind_ok,
      beq_false_of_ne hcne]
    simp only [Bool.false_eq_true, if_false]
    rw [ih fu' (out.push c) l.advance hdrop'
      (fun d hd => hnl d (by simp [hd])) (by simpa using hfu)]
    simp only [Except.ok.injEq, Prod.mk.injEq]
    constructor
    · exact string_ext (by simp [String.push])
    · simp only [Lexer.advance, Lexer.mk.injEq, true_and, and_true, List.length_cons]
      omega

/-- C9 (amended, general form): a comment that reaches the end of the
input without a newline terminator is returned as a `Comment` token
holding the remaining text; no out-of-bounds access occurs. -/
theorem nextTok_comment (s : String) (h : ∀ c ∈ s.data, c ≠ '\n') (fu : Nat) :
    nextTok (fu + 1) (Lexer.new ('#' :: s.data)) =
      .ok (some (.Comment s), ⟨'#' :: s.data, 1 + s.data.length, false⟩) := by
  rw [nextTok_succ, if_neg (chars_left_pos (by simp [Lexer.new]))]
  rw [take_char_eq (show (Lexer.new ('#' :: s.data)).chars[(Lexer.new ('#' :: s.data)).pos]?
    = some '#' by simp [Lexer.new]), bind_ok]
  show (nextTokCore '#' (Lexer.new ('#' :: s.data)) (Lexer.new ('#' :: s.data)).advance >>= _) = _
  rw [show nextTokCore '#' (Lexer.new ('#' :: s.data)) (Lexer.new ('#' :: s.data)).advance =
      take_comment ((Lexer.new ('#' :: s.data)).advance.chars.length + 1) ""
          (Lexer.new ('#' :: s.data)).advance >>= fun x =>
        match x with
        | (text, l') => .ok (.inl (.Comment text, l')) from rfl]
  rw [take_comment_spec s.data ((Lexer.new ('#' :: s.data)).advance.chars.length + 1) ""
    (Lexer.new ('#' :: s.data)).advance rfl h
    (show s.data.length < s.data.length + 1 + 1 by omega), bind_ok]
  show (Except.ok (Sum.inl (Token.Comment ⟨("" : String).data ++ s.data⟩,
    ({ (Lexer.new ('#' :: s.data)).advance with
        pos := (Lexer.new ('#' :: s.data)).advance.pos + s.data.length } : Lexer))) >>= _) = _
  rw [bind_ok]
  have hs : (⟨("" : String).data ++ s.data⟩ : String) = s := string_ext (by simp)
  rw [hs]
  rfl

/-- C9 (amended, general form): a comment that reaches the end of the
input without a newline terminator is returned as a `Comment` token
holding the remaining text; no out-of-bounds access occurs. -/
theorem C9_comment_eof_ok (s : String) (h : ∀ c ∈ s.data, c ≠ '\n') :
    scan ("#" ++ s) = .ok [.Comment s] := by
  show scanAux (("#" ++ s).length + 1) (Lexer.new ('#' :: s.data)) = .ok [.Comment s]
  have hfu : ("#" ++ s).length = s.data.length + 1 := by
    rw [String.length_append]
    show 1 + s.data.length = s.data.length + 1
    omega
  rw [hfu]
  exact scanAux_step (s.data.length + 1)
    (nextTok_comment s h (Lexer.new ('#' :: s.data)).chars.length)
    (scanAux_done s.data.length _
      (show s.data.length + 1 ≤ 1 + s.data.length by omega))

/-- C9 witness: the general comment-at-end-of-input theorem applied to the
concrete input `#abc`. -/
theorem C9_witness :
    (∀ c ∈ "abc".data, c ≠ '\n') ∧ scan ("#" ++ "abc") = .ok [.Comment "abc"] :=
  ⟨by decide, C9_comment_eof_ok "abc" (by decide)⟩

/-! ## Unfolding and characterization of the helper loops -/

theorem bind_error {α β : Type} (e : LexError) (f : α → Except LexError β) :
    ((Except.error e : Except LexError α) >>= f) = .error e := rfl

theorem peek_char_ok {l : Lexer} {c : Char} (h : l.peek_char = .ok c) :
    l.chars[l.pos]? = some c := by
  unfold Lexer.peek_char at h
  rw [List.get?_eq_getElem?] at h
  cases hg : l.chars[l.pos]? with
  | some d => rw [hg] at h; cases h; rfl
  | none => rw [hg] at h; cases h

theorem take_char_ok {l : Lexer} {c : Char} {l1 : Lexer}
    (h : l.take_char = .ok (c, l1)) :
    l.chars[l.pos]? = some c ∧ l1 = l.advance := by
  unfold Lexer.take_char at h
  rw [List.get?_eq_getElem?] at h
  cases hg : l.chars[l.pos]? with
  | some d =>
    rw [hg] at h
    simp only [Except.ok.injEq, Prod.mk.injEq] at h
    exact ⟨by rw [← h.1], h.2.symm⟩
  | none => rw [hg] at h; cases h

theorem take_ident_loop_succ (fu : Nat) (l : Lexer) :
    take_ident_loop (fu + 1) l =
      l.peek_char >>= fun c =>
        if isIdentChar c then take_ident_loop fu l.advance else .ok l := rfl

theorem take_spaces_succ (fu count : Nat) (l : Lexer) :
    take_spaces (fu + 1) count l =
      l.peek_char >>= fun c =>
        if c == ' ' then take_spaces fu (count + 1) l.advance
        else .ok (count, l) := rfl

theorem take_comment_succ (fu : Nat) (out : String) (l : Lexer) :
    take_comment (fu + 1) out l =
      if l.chars_left = 0 then .ok (out, l)
      else
        l.peek_char >>= fun c =>
          if c == '\n' then .ok (out, l)
          else take_comment fu (out.push c) l.advance := rfl

theorem take_number_succ (fu : Nat) (float : Bool) (out : String) (l : Lexer) :
    take_number (fu + 1) float out l =
      if l.chars_left = 0 then
        .ok (if float then .FloatLit out else .IntLit out, l)
      else
        l.peek_char >>= fun c =>
          if isDigitChar c || c == 'x' || c == 'b' then
            take_number fu float (out.push c) l.advance
          else if c == '.' then
            take_number fu true (out.push c) l.advance
          else
            .ok (if float then .FloatLit out else .IntLit out, l) := rfl

theorem take_tags_succ (fu : Nat) (tags : List Char) (l : Lexer) :
    take_tags (fu + 1) tags l =
      l.take_char >>= fun x =>
        match x with
        | (c, l') =>
          if c == '\'' || c == '"' then .ok (tags, c, l')
          else take_tags fu (insertTag tags c) l' := rfl

theorem take_ident_loop_mono :
    ∀ (fu : Nat) (l l' : Lexer), take_ident_loop fu l = .ok l' →
      l.pos ≤ l'.pos ∧ l'.chars = l.chars ∧ l'.start_of_line = l.start_of_line := by
  intro fu
  induction fu with
  | zero => intro l l' h; cases h
  | succ fu ih =>
    intro l l' h
    rw [take_ident_loop_succ] at h
    cases hq : l.peek_char with
    | error e => rw [hq, bind_error] at h; cases h
    | ok c =>
      rw [hq, bind_ok] at h
      by_cases hcid : isIdentChar c = true
      · rw [if_pos hcid] at h
        obtain ⟨h1, h2, h3⟩ := ih l.advance l' h
        refine ⟨?_, h2, h3⟩
        simp only [Lexer.advance] at h1
        omega
      · rw [if_neg hcid] at h
        cases h
        exact ⟨le_refl _, rfl, rfl⟩

theorem take_ident_strict {fu : Nat} {l l' : Lexer} {w : List Char}
    (h : take_ident fu l = .ok (w, l')) :
    l.pos < l'.pos ∧ l'.chars = l.chars ∧ l'.start_of_line = l.start_of_line := by
  unfold take_ident at h
  cases hq : take_ident_loop fu l with
  | error e => rw [hq, bind_error] at h; cases h
  | ok l'' =>
    rw [hq, bind_ok] at h
    obtain ⟨h1, h2, h3⟩ := take_ident_loop_mono fu l l'' hq
    by_cases hp : l''.pos = l.pos
    · rw [if_pos hp] at h; cases h
    · rw [if_neg hp] at h
      cases h
      exact ⟨by omega, h2, h3⟩

theorem take_spaces_spec :
    ∀ (fu count : Nat) (l : Lexer) (k : Nat) (l' : Lexer),
    take_spaces fu count l = .ok (k, l') →
    ∃ m, k = count + m ∧ l'.chars = l.chars ∧ l'.start_of_line = l.start_of_line ∧
      l'.pos = l.pos + m ∧ (∀ i, i < m → l.chars[l.pos + i]? = some ' ') ∧
      ∃ c, l.chars[l.pos + m]? = some c ∧ c ≠ ' ' := by
  intro fu
  induction fu with
  | zero => intro count l k l' h; cases h
  | succ fu ih =>
    intro count l k l' h
    rw [take_spaces_succ] at h
    cases hq : l.peek_char with
    | error e => rw [hq, bind_error] at h; cases h
    | ok c =>
      rw [hq, bind_ok] at h
      have hget := peek_char_ok hq
      by_cases hsp : c = ' '
      · subst hsp
        rw [if_pos (show (' ' == ' ') = true from rfl)] at h
        obtain ⟨m, hm1, hm2, hm3, hm4, hm5, d, hd1, hd2⟩ := ih (count + 1) l.advance k l' h
        refine ⟨m + 1, by omega, hm2, hm3, ?_, ?_, d, ?_, hd2⟩
        · simp only [Lexer.advance] at hm4; omega
        · intro i hi
          cases i with
          | zero => simpa using hget
          | succ j =>
            have := hm5 j (by omega)
            simp only [Lexer.advance] at this
            rw [show l.pos + (j + 1) = l.pos + 1 + j from by omega]
            exact this
        · simp only [Lexer.advance] at hd1
          rw [show l.pos + (m + 1) = l.pos + 1 + m from by omega]
          exact hd1
      · rw [if_neg (show ¬((c == ' ') = true) by simpa using hsp)] at h
        cases h
        exact ⟨0, by omega, rfl, rfl, by omega, by omega, c, by simpa using hget, hsp⟩

theorem take_spaces_run :
    ∀ (m fu count : Nat) (l : Lexer) (c : Char),
    (∀ i, i < m → l.chars[l.pos + i]? = some ' ') →
    l.chars[l.pos + m]? = some c → c ≠ ' ' → m < fu →
    take_spaces fu count l = .ok (count + m, { l with pos := l.pos + m }) := by
  intro m
  induction m with
  | zero =>
    intro fu count l c _ hc hcs hfu
    obtain ⟨fu', rfl⟩ : ∃ fu', fu = fu' + 1 := ⟨fu - 1, by omega⟩
    rw [take_spaces_succ, peek_char_eq (by simpa using hc), bind_ok,
      if_neg (show ¬((c == ' ') = true) by simpa using hcs)]
    simp
  | succ m ih =>
    intro fu count l c hsp hc hcs hfu
    obtain ⟨fu', rfl⟩ : ∃ fu', fu = fu' + 1 := ⟨fu - 1, by omega⟩
    have h0 : l.chars[l.pos]? = some ' ' := by simpa using hsp 0 (by omega)
    rw [take_spaces_succ, peek_char_eq h0, bind_ok,
      if_pos (show (' ' == ' ') = true from rfl)]
    rw [ih fu' (count + 1) l.advance c
      (by
        intro i hi
        have := hsp (i + 1) (by omega)
        simp only [Lexer.advance]
        rw [show l.pos + 1 + i = l.pos + (i + 1) from by omega]
        exact this)
      (by
        simp only [Lexer.advance]
        rw [show l.pos + 1 + m = l.pos + (m + 1) from by omega]
        exact hc)
      hcs (by omega)]
    simp only [Lexer.advance, Except.ok.injEq, Prod.mk.injEq, Lexer.mk.injEq,
      true_and, and_true]
    omega

theorem take_comment_mono :
    ∀ (fu : Nat) (out : String) (l : Lexer) (text : String) (l' : Lexer),
    take_comment fu out l = .ok (text, l') →
    l.pos ≤ l'.pos ∧ l'.chars = l.chars ∧ l'.start_of_line = l.start_of_line := by
  intro fu
  induction fu with
  | zero => intro out l text l' h; cases h
  | succ fu ih =>
    intro out l text l' h
    rw [take_comment_succ] at h
    by_cases hz : l.chars_left = 0
    · rw [if_pos hz] at h
      cases h
      exact ⟨le_refl _, rfl, rfl⟩
    · rw [if_neg hz] at h
      cases hq : l.peek_char with
      | error e => rw [hq, bind_error] at h; cases h
      | ok c =>
        rw [hq, bind_ok] at h
        by_cases hnl : c == '\n'
        · rw [if_pos hnl] at h
          cases h
          exact ⟨le_refl _, rfl, rfl⟩
        · rw [if_neg hnl] at h
          obtain ⟨h1, h2, h3⟩ := ih (out.push c) l.advance text l' h
          refine ⟨?_, h2, h3⟩
          simp only [Lexer.advance] at h1
          omega

theorem take_number_mono :
    ∀ (fu : Nat) (float : Bool) (out : String) (l : Lexer) (t : Token) (l' : Lexer),
    take_number fu float out l = .ok (t, l') →
    (l.pos ≤ l'.pos ∧ l'.chars = l.chars ∧ l'.start_of_line = l.start_of_line) ∧
      ∃ u, t = .IntLit u ∨ t = .FloatLit u := by
  intro fu
  induction fu with
  | zero => intro float out l t l' h; cases h
  | succ fu ih =>
    intro float out l t l' h
    rw [take_number_succ] at h
    by_cases hz : l.chars_left = 0
    · rw [if_pos hz] at h
      cases h
      refine ⟨⟨le_refl _, rfl, rfl⟩, out, ?_⟩
      cases float <;> simp
    · rw [if_neg hz] at h
      cases hq : l.peek_char with
      | error e => rw [hq, bind_error] at h; cases h
      | ok c =>
        rw [hq, bind_ok] at h
        by_cases h1 : (isDigitChar c || c == 'x' || c == 'b') = true
        · rw [if_pos h1] at h
          obtain ⟨⟨ha, hb, hc⟩, u, hu⟩ := ih float (out.push c) l.advance t l' h
          exact ⟨⟨by simp only [Lexer.advance] at ha; omega, hb, hc⟩, u, hu⟩
        · rw [if_neg h1] at h
          by_cases h2 : (c == '.') = true
          · rw [if_pos h2] at h
            obtain ⟨⟨ha, hb, hc⟩, u, hu⟩ := ih true (out.push c) l.advance t l' h
            exact ⟨⟨by simp only [Lexer.advance] at ha; omega, hb, hc⟩, u, hu⟩
          · rw [if_neg h2] at h
            cases h
            refine ⟨⟨le_refl _, rfl, rfl⟩, out, ?_⟩
            cases float <;> simp

theorem take_tags_strict :
    ∀ (fu : Nat) (tags : List Char) (l : Lexer) (res : List Char × Char × Lexer),
    take_tags fu tags l = .ok res →
    l.pos < res.2.2.pos ∧ res.2.2.chars = l.chars ∧
      res.2.2.start_of_line = l.start_of_line := by
  intro fu
  induction fu with
  | zero => intro tags l res h; cases h
  | succ fu ih =>
    intro tags l res h
    rw [take_tags_succ] at h
    cases hq : l.take_char with
    | error e => rw [hq, bind_error] at h; cases h
    | ok x =>
      obtain ⟨c, l1⟩ := x
      rw [hq, bind_ok] at h
      obtain ⟨-, hl1⟩ := take_char_ok hq
      subst hl1
      simp only [] at h
      by_cases hc : (c == '\'' || c == '"') = true
      · rw [if_pos hc] at h
        cases h
        exact ⟨by simp [Lexer.advance], rfl, rfl⟩
      · rw [if_neg hc] at h
        obtain ⟨h1, h2, h3⟩ := ih (insertTag tags c) l.advance res h
        exact ⟨by simp only [Lexer.advance] at h1; omega, h2, h3⟩

theorem take_str_body_mono :
    ∀ (fu : Nat) (quote : Char) (esc : Bool) (out : String) (l : Lexer)
      (res : String × Lexer),
    take_str_body fu quote esc out l = .ok res →
    l.pos ≤ res.2.pos ∧ res.2.chars = l.chars ∧
      res.2.start_of_line = l.start_of_line := by
  intro fu
  induction fu with
  | zero => intro quote esc out l res h; cases h
  | succ fu ih =>
    intro quote esc out l res h
    rw [show take_str_body (fu + 1) quote esc out l =
        (l.take_char >>= fun x =>
          match x with
          | (c, l1) =>
            if c == '\\' then take_str_body fu quote true out l1
            else if esc then
              if c == '\'' || c == '"' then take_str_body fu quote false (out.push c) l1
              else if c == 'n' then take_str_body fu quote false (out.push '\n') l1
              else if c == 'r' then take_str_body fu quote false (out.push '\r') l1
              else if c == 't' then take_str_body fu quote false (out.push '\t') l1
              else if c == 'x' then
                l1.take_char >>= fun y =>
                match y with
                | (c1, l2) =>
                  l2.take_char >>= fun z =>
                  match z with
                  | (c2, l3) =>
                    match hexDigitVal c1, hexDigitVal c2 with
                    | some a, some b =>
                        take_str_body fu quote false (out.push (Char.ofNat (16 * a + b))) l3
                    | _, _ => .error .badCharCode
              else if c == '0' then
                l1.take_char >>= fun y =>
                match y with
                | (c1, l2) =>
                  l2.take_char >>= fun z =>
                  match z with
                  | (c2, l3) =>
                    match octDigitVal c1, octDigitVal c2 with
                    | some a, some b =>
                        take_str_body fu quote false (out.push (Char.ofNat (8 * a + b))) l3
                    | _, _ => .error .badCharCode
              else .error (.badEscape c)
            else if c == quote then .ok (out, l1)
            else take_str_body fu quote false (out.push c) l1) from rfl] at h
    cases hq : l.take_char with
    | error e => rw [hq, bind_error] at h; cases h
    | ok x =>
      obtain ⟨c, l1⟩ := x
      rw [hq, bind_ok] at h
      obtain ⟨-, hl1⟩ := take_char_ok hq
      subst hl1
      simp only [] at h
      by_cases h1 : (c == '\\') = true
      · rw [if_pos h1] at h
        obtain ⟨a, b, d⟩ := ih quote true out l.advance res h
        exact ⟨by simp only [Lexer.advance] at a; omega, by rw [b]; rfl, by rw [d]; rfl⟩
      · rw [if_neg h1] at h
        by_cases h2 : esc = true
        · subst h2
          rw [if_pos rfl] at h
          by_cases h3 : (c == '\'' || c == '"') = true
          · rw [if_pos h3] at h
            obtain ⟨a, b, d⟩ := ih quote false (out.push c) l.advance res h
            exact ⟨by simp only [Lexer.advance] at a; omega, b, d⟩
          · rw [if_neg h3] at h
            by_cases h4 : (c == 'n') = true
            · rw [if_pos h4] at h
              obtain ⟨a, b, d⟩ := ih quote false (out.push '\n') l.advance res h
              exact ⟨by simp only [Lexer.advance] at a; omega, b, d⟩
            · rw [if_neg h4] at h
              by_cases h5 : (c == 'r') = true
              · rw [if_pos h5] at h
                obtain ⟨a, b, d⟩ := ih quote false (out.push '\r') l.advance res h
                exact ⟨by simp only [Lexer.advance] at a; omega, b, d⟩
              · rw [if_neg h5] at h
                by_cases h6 : (c == 't') = true
                · rw [if_pos h6] at h
                  obtain ⟨a, b, d⟩ := ih quote false (out.push '\t') l.advance res h
                  exact ⟨by simp only [Lexer.advance] at a; omega, b, d⟩
                · rw [if_neg h6] at h
                  by_cases h7 : (c == 'x') = true
                  · rw [if_pos h7] at h
                    cases hq2 : l.advance.take_char with
                    | error e => rw [hq2, bind_error] at h; cases h
                    | ok y =>
                      obtain ⟨c1, l2⟩ := y
                      rw [hq2, bind_ok] at h
                      obtain ⟨-, hl2⟩ := take_char_ok hq2
                      subst hl2
                      simp only [] at h
                      cases hq3 : l.advance.advance.take_char with
                      | error e => rw [hq3, bind_error] at h; cases h
                      | ok z =>
                        obtain ⟨c2, l3⟩ := z
                        rw [hq3, bind_ok] at h
                        obtain ⟨-, hl3⟩ := take_char_ok hq3
                        subst hl3
                        simp only [] at h
                        cases ha : hexDigitVal c1 with
                        | none => rw [ha] at h; cases h
                        | some a =>
                          cases hb : hexDigitVal c2 with
                          | none => rw [ha, hb] at h; cases h
                          | some b =>
                            rw [ha, hb] at h
                            obtain ⟨x1, x2, x3⟩ := ih quote false
                              (out.push (Char.ofNat (16 * a + b)))
                              l.advance.advance.advance res h
                            exact ⟨by simp only [Lexer.advance] at x1; omega, x2, x3⟩
                  · rw [if_neg h7] at h
                    by_cases h8 : (c == '0') = true
                    · rw [if_pos h8] at h
                      cases hq2 : l.advance.take_char with
                      | error e => rw [hq2, bind_error] at h; cases h
                      | ok y =>
                        obtain ⟨c1, l2⟩ := y
                        rw [hq2, bind_ok] at h
                        obtain ⟨-, hl2⟩ := take_char_ok hq2
                        subst hl2
                        simp only [] at h
                        cases hq3 : l.advance.advance.take_char with
                        | error e => rw [hq3, bind_error] at h; cases h
                        | ok z =>
                          obtain ⟨c2, l3⟩ := z
                          rw [hq3, bind_ok] at h
                          obtain ⟨-, hl3⟩ := take_char_ok hq3
                          subst hl3
                          simp only [] at h
                          cases ha : octDigitVal c1 with
                          | none => rw [ha] at h; cases h
                          | some a =>
                            cases hb : octDigitVal c2 with
                            | none => rw [ha, hb] at h; cases h
                            | some b =>
                              rw [ha, hb] at h
                              obtain ⟨x1, x2, x3⟩ := ih quote false
                                (out.push (Char.ofNat (8 * a + b)))
                                l.advance.advance.advance res h
                              exact ⟨by simp only [Lexer.advance] at x1; omega, x2, x3⟩
                    · rw [if_neg h8] at h
                      cases h
        · have h2' : esc = false := by
            cases esc
            · rfl
            · exact absurd rfl h2
          subst h2'
          rw [if_neg (by simp)] at h
          by_cases h9 : (c == quote) = true
          · rw [if_pos h9] at h
            cases h
            exact ⟨by simp [Lexer.advance], rfl, rfl⟩
          · rw [if_neg h9] at h
            obtain ⟨a, b, d⟩ := ih quote false (out.push c) l.advance res h
            exact ⟨by simp only [Lexer.advance] at a; omega, b, d⟩

theorem take_str_lit_strict :
    ∀ (fu : Nat) (l : Lexer) (t : Token) (l' : Lexer),
    take_str_lit fu l = .ok (t, l') →
    (l.pos < l'.pos ∧ l'.chars = l.chars ∧ l'.start_of_line = l.start_of_line) ∧
      ∃ tags val, t = .StrLit tags val := by
  intro fu l t l' h
  unfold take_str_lit at h
  cases hq : take_tags fu [] l with
  | error e => rw [hq, bind_error] at h; cases h
  | ok x =>
    obtain ⟨tags, quote, l1⟩ := x
    rw [hq, bind_ok] at h
    simp only [] at h
    have h1 := take_tags_strict fu [] l (tags, quote, l1) hq
    cases hb : take_str_body fu quote false "" l1 with
    | error e => rw [hb, bind_error] at h; cases h
    | ok y =>
      obtain ⟨val, l2⟩ := y
      rw [hb, bind_ok] at h
      have h2 := take_str_body_mono fu quote false "" l1 (val, l2) hb
      dsimp only [] at h1 h2
      cases h
      refine ⟨⟨?_, ?_, ?_⟩, tags, val, rfl⟩
      · show l.pos < l2.pos
        have := h1.1
        have := h2.1
        omega
      · show l2.chars = l.chars
        rw [h2.2.1, h1.2.1]
      · show l2.start_of_line = l.start_of_line
        rw [h2.2.2, h1.2.2]

theorem parse_ident_not_newline (s : String) : (parse_ident s).isNewLine = false := by
  unfold parse_ident
  split <;> rfl

theorem parse_ident_not_indent (s : String) :
    ∀ n : Nat, parse_ident s ≠ .Indent n := by
  unfold parse_ident
  split <;> intro n h <;> cases h

/-! ## One step of the scanner match: the `CoreOut` characterization -/

theorem coreOut_emit {c : Char} {l : Lexer} {K : Token} {lf : Lexer}
    {r : Token × Lexer ⊕ Lexer}
    (h : (Except.ok (.inl (K, lf)) : Except LexError (Token × Lexer ⊕ Lexer)) = .ok r)
    (hK : ∀ n, K ≠ .Indent n) (hpos : l.pos < lf.pos) (hch : lf.chars = l.chars) :
    CoreOut c l r := by
  injection h with h'
  subst h'
  constructor
  · intro t l₂ hr
    cases hr
    exact ⟨hpos, hch, fun n hn => absurd hn (hK n)⟩
  · intro l₂ hr
    cases hr

theorem coreOut_skip {c : Char} {l : Lexer} {lf : Lexer}
    {r : Token × Lexer ⊕ Lexer}
    (h : (Except.ok (.inr lf) : Except LexError (Token × Lexer ⊕ Lexer)) = .ok r)
    (hpos : l.pos < lf.pos) (hch : lf.chars = l.chars)
    (hle : lf.pos ≤ l.chars.length) (hfl : lf.start_of_line = l.start_of_line) :
    CoreOut c l r := by
  injection h with h'
  subst h'
  constructor
  · intro t l₂ hr
    cases hr
  · intro l₂ hr
    cases hr
    exact ⟨hpos, hch, hle, hfl⟩

set_option maxHeartbeats 1600000 in
theorem core_spec {c : Char} {l : Lexer} {r : Token × Lexer ⊕ Lexer}
    (hc : l.chars[l.pos]? = some c)
    (h : nextTokCore c l l.advance = .ok r) : CoreOut c l r := by
  have hposlt : l.pos < l.chars.length := lt_length_of_getElem? hc
  have hadv1 : l.pos < l.advance.pos := by simp [Lexer.advance]
  have hadv2 : l.pos < l.advance.advance.pos := by simp only [Lexer.advance]; omega
  have hadv3 : l.pos < l.advance.advance.advance.pos := by
    simp only [Lexer.advance]; omega
  unfold nextTokCore at h
  by_cases hb1 : (c == ' ' && l.start_of_line) = true
  · rw [if_pos hb1] at h
    obtain ⟨hc', hsol⟩ : c = ' ' ∧ l.start_of_line = true := by
      simpa [Bool.and_eq_true, beq_iff_eq] using hb1
    cases hs : take_spaces (l.advance.chars.length + 1) 1 l.advance with
    | error e => rw [hs, bind_error] at h; cases h
    | ok x =>
      obtain ⟨k, l2⟩ := x
      rw [hs, bind_ok] at h
      dsimp only [] at h
      obtain ⟨m, hk, hch2, hsol2, hpos2, hsp, d, hd, hdne⟩ :=
        take_spaces_spec _ 1 l.advance k l2 hs
      simp only [Lexer.advance] at hch2 hpos2 hsp hd
      by_cases hk1 : k = 1
      · rw [if_pos hk1] at h
        exact coreOut_skip h (by omega) hch2
          (by have := lt_length_of_getElem? hd; omega)
          (by rw [hsol2]; rfl)
      · rw [if_neg hk1] at h
        by_cases hk4 : k % 4 = 0
        · rw [if_neg (not_not_intro hk4)] at h
          injection h with h'
          subst h'
          have h4k : 4 * (k / 4) = k := Nat.mul_div_cancel' (Nat.dvd_of_mod_eq_zero hk4)
          constructor
          · intro t l₂ hr
            cases hr
            refine ⟨by omega, hch2, ?_⟩
            intro n hn
            have hnk : n = k / 4 := by cases hn; rfl
            subst hnk
            refine ⟨by omega, hc', hsol, ?_, ⟨d, ?_, hdne⟩, ?_⟩
            · intro i hi
              rw [h4k] at hi
              cases i with
              | zero =>
                rw [← hc']
                simpa using hc
              | succ j =>
                have hj := hsp j (by omega)
                rw [show l.pos + (j + 1) = l.pos + 1 + j from by omega]
                exact hj
            · rw [h4k, show l.pos + k = l.pos + 1 + m from by omega]
              exact hd
            · rw [h4k]
              omega
          · intro l₂ hr
            cases hr
        · rw [if_pos hk4] at h
          cases h
  rw [if_neg hb1] at h
  by_cases hb2 : (c == '\n') = true
  · rw [if_pos hb2] at h
    exact coreOut_emit h (by intro n hn; cases hn) hadv1 rfl
  rw [if_neg hb2] at h
  by_cases hb3 : isAsciiWhitespace c = true
  · rw [if_pos hb3] at h
    exact coreOut_skip h hadv1 rfl (by simp only [Lexer.advance]; omega) rfl
  rw [if_neg hb3] at h
  by_cases hb4 : isAlphaChar c = true
  · rw [if_pos hb4] at h
    cases hq : l.advance.peek_char with
    | error e => rw [hq, bind_error] at h; cases h
    | ok q =>
      rw [hq, bind_ok] at h
      by_cases hquote : (q == '\'' || q == '"') = true
      · rw [if_pos hquote] at h
        cases hsl : take_str_lit (l.chars.length + 1) l with
        | error e => rw [hsl, bind_error] at h; cases h
        | ok x =>
          obtain ⟨t0, l'0⟩ := x
          rw [hsl, bind_ok] at h
          dsimp only [] at h
          obtain ⟨⟨hlt, hch0, -⟩, tags, val, htv⟩ := take_str_lit_strict _ _ _ _ hsl
          subst htv
          exact coreOut_emit h (by intro n hn; cases hn) hlt hch0
      · rw [if_neg hquote] at h
        cases hti : take_ident (l.chars.length + 1) l with
        | error e => rw [hti, bind_error] at h; cases h
        | ok x =>
          obtain ⟨w, l'0⟩ := x
          rw [hti, bind_ok] at h
          dsimp only [] at h
          obtain ⟨hlt, hch0, -⟩ := take_ident_strict hti
          exact coreOut_emit h (parse_ident_not_indent (String.mk w)) hlt hch0
  rw [if_neg hb4] at h
  by_cases hb5 : (c == '_') = true
  · rw [if_pos hb5] at h
    cases hti : take_ident (l.chars.length + 1) l with
    | error e => rw [hti, bind_error] at h; cases h
    | ok x =>
      obtain ⟨w, l'0⟩ := x
      rw [hti, bind_ok] at h
      dsimp only [] at h
      obtain ⟨hlt, hch0, -⟩ := take_ident_strict hti
      exact coreOut_emit h (parse_ident_not_indent (String.mk w)) hlt hch0
  rw [if_neg hb5] at h
  by_cases hb6 : (c == '(') = true
  · rw [if_pos hb6] at h
    exact coreOut_emit h (by intro n hn; cases hn) hadv1 rfl
  rw [if_neg hb6] at h
  by_cases hb7 : (c == ')') = true
  · rw [if_pos hb7] at h
    exact coreOut_emit h (by intro n hn; cases hn) hadv1 rfl
  rw [if_neg hb7] at h
  by_cases hb8 : (c == '{') = true
  · rw [if_pos hb8] at h
    exact coreOut_emit h (by intro n hn; cases hn) hadv1 rfl
  rw [if_neg hb8] at h
  by_cases hb9 : (c == '}') = true
  · rw [if_pos hb9] at h
    exact coreOut_emit h (by intro n hn; cases hn) hadv1 rfl
  rw [if_neg hb9] at h
  by_cases hb10 : (c == '[') = true
  · rw [if_pos hb10] at h
    exact coreOut_emit h (by intro n hn; cases hn) hadv1 rfl
  rw [if_neg hb10] at h
  by_cases hb11 : (c == ']') = true
  · rw [if_pos hb11] at h
    exact coreOut_emit h (by intro n hn; cases hn) hadv1 rfl
  rw [if_neg hb11] at h
  by_cases hb12 : (c == ':') = true
  · rw [if_pos hb12] at h
    cases hq : l.advance.peek_char with
    | error e => rw [hq, bind_error] at h; cases h
    | ok q =>
      rw [hq, bind_ok] at h
      by_cases hqe : (q == '=') = true
      · rw [if_pos hqe] at h
        exact coreOut_emit h (by intro n hn; cases hn) hadv2 rfl
      · rw [if_neg hqe] at h
        exact coreOut_emit h (by intro n hn; cases hn) hadv1 rfl
  rw [if_neg hb12] at h
  by_cases hb13 : (c == ';') = true
  · rw [if_pos hb13] at h
    exact coreOut_emit h (by intro n hn; cases hn) hadv1 rfl
  rw [if_neg hb13] at h
  by_cases hb14 : (c == ',') = true
  · rw [if_pos hb14] at h
    exact coreOut_emit h (by intro n hn; cases hn) hadv1 rfl
  rw [if_neg hb14] at h
  by_cases hb15 : (c == '&') = true
  · rw [if_pos hb15] at h
    cases hq : l.advance.peek_char with
    | error e => rw [hq, bind_error] at h; cases h
    | ok q =>
      rw [hq, bind_ok] at h
      by_cases hq1 : (q == '=') = true
      · rw [if_pos hq1] at h
        exact coreOut_emit h (by intro n hn; cases hn) hadv2 rfl
      rw [if_neg hq1] at h
      by_cases hq2 : (q == '&') = true
      · rw [if_pos hq2] at h
        exact coreOut_emit h (by intro n hn; cases hn) hadv2 rfl
      rw [if_neg hq2] at h
      exact coreOut_emit h (by intro n hn; cases hn) hadv1 rfl
  rw [if_neg hb15] at h
  by_cases hb16 : (c == '|') = true
  · rw [if_pos hb16] at h
    cases hq : l.advance.peek_char with
    | error e => rw [hq, bind_error] at h; cases h
    | ok q =>
      rw [hq, bind_ok] at h
      by_cases hq1 : (q == '=') = true
      · rw [if_pos hq1] at h
        exact coreOut_emit h (by intro n hn; cases hn) hadv2 rfl
      rw [if_neg hq1] at h
      by_cases hq2 : (q == '|') = true
      · rw [if_pos hq2] at h
        exact coreOut_emit h (by intro n hn; cases hn) hadv2 rfl
      rw [if_neg hq2] at h
      exact coreOut_emit h (by intro n hn; cases hn) hadv1 rfl
  rw [if_neg hb16] at h
  by_cases hb17 : (c == '-') = true
  · rw [if_pos hb17] at h
    cases hq : l.advance.peek_char with
    | error e => rw [hq, bind_error] at h; cases h
    | ok q =>
      rw [hq, bind_ok] at h
      by_cases hq1 : (q == '=') = true
      · rw [if_pos hq1] at h
        exact coreOut_emit h (by intro n hn; cases hn) hadv2 rfl
      rw [if_neg hq1] at h
      by_cases hq2 : (q == '>') = true
      · rw [if_pos hq2] at h
        exact coreOut_emit h (by intro n hn; cases hn) hadv2 rfl
      rw [if_neg hq2] at h
      exact coreOut_emit h (by intro n hn; cases hn) hadv1 rfl
  rw [if_neg hb17] at h
  by_cases hb18 : (c == '+') = true
  · rw [if_pos hb18] at h
    cases hq : l.advance.peek_char with
    | error e => rw [hq, bind_error] at h; cases h
    | ok q =>
      rw [hq, bind_ok] at h
      by_cases hq1 : (q == '=') = true
      · rw [if_pos hq1] at h
        exact coreOut_emit h (by intro n hn; cases hn) hadv2 rfl
      rw [if_neg hq1] at h
      exact coreOut_emit h (by intro n hn; cases hn) hadv1 rfl
  rw [if_neg hb18] at h
  by_cases hb19 : (c == '%') = true
  · rw [if_pos hb19] at h
    cases hq : l.advance.peek_char with
    | error e => rw [hq, bind_error] at h; cases h
    | ok q =>
      rw [hq, bind_ok] at h
      by_cases hq1 : (q == '=') = true
      · rw [if_pos hq1] at h
        exact coreOut_emit h (by intro n hn; cases hn) hadv2 rfl
      rw [if_neg hq1] at h
      exact coreOut_emit h (by intro n hn; cases hn) hadv1 rfl
  rw [if_neg hb19] at h
  by_cases hb20 : (c == '=') = true
  · rw [if_pos hb20] at h
    cases hq : l.advance.peek_char with
    | error e => rw [hq, bind_error] at h; cases h
    | ok q =>
      rw [hq, bind_ok] at h
      by_cases hq1 : (q == '=') = true
      · rw [if_pos hq1] at h
        exact coreOut_emit h (by intro n hn; cases hn) hadv2 rfl
      rw [if_neg hq1] at h
      exact coreOut_emit h (by intro n hn; cases hn) hadv1 rfl
  rw [if_neg hb20] at h
  by_cases hb21 : (c == '!') = true
  · rw [if_pos hb21] at h
    cases hq : l.advance.peek_char with
    | error e => rw [hq, bind_error] at h; cases h
    | ok q =>
      rw [hq, bind_ok] at h
      by_cases hq1 : (q == '=') = true
      · rw [if_pos hq1] at h
        exact coreOut_emit h (by intro n hn; cases hn) hadv2 rfl
      rw [if_neg hq1] at h
      cases h
  rw [if_neg hb21] at h
  by_cases hb22 : (c == '/') = true
  · rw [if_pos hb22] at h
    cases hq : l.advance.peek_char with
    | error e => rw [hq, bind_error] at h; cases h
    | ok q =>
      rw [hq, bind_ok] at h
      by_cases hq1 : (q == '/') = true
      · rw [if_pos hq1] at h
        dsimp only [] at h
        cases hq2 : l.advance.advance.peek_char with
        | error e => rw [hq2, bind_error] at h; cases h
        | ok q2 =>
          rw [hq2, bind_ok] at h
          by_cases hq3 : (q2 == '=') = true
          · rw [if_pos hq3] at h
            exact coreOut_emit h (by intro n hn; cases hn) hadv3 rfl
          rw [if_neg hq3] at h
          exact coreOut_emit h (by intro n hn; cases hn) hadv2 rfl
      rw [if_neg hq1] at h
      exact coreOut_emit h (by intro n hn; cases hn) hadv1 rfl
  rw [if_neg hb22] at h
  by_cases hb23 : (c == '*') = true
  · rw [if_pos hb23] at h
    cases hq : l.advance.peek_char with
    | error e => rw [hq, bind_error] at h; cases h
    | ok q =>
      rw [hq, bind_ok] at h
      by_cases hq1 : (q == '*') = true
      · rw [if_pos hq1] at h
        dsimp only [] at h
        cases hq2 : l.advance.advance.peek_char with
        | error e => rw [hq2, bind_error] at h; cases h
        | ok q2 =>
          rw [hq2, bind_ok] at h
          by_cases hq3 : (q2 == '=') = true
          · rw [if_pos hq3] at h
            exact coreOut_emit h (by intro n hn; cases hn) hadv3 rfl
          rw [if_neg hq3] at h
          exact coreOut_emit h (by intro n hn; cases hn) hadv2 rfl
      rw [if_neg hq1] at h
      by_cases hq2 : (q == '=') = true
      · rw [if_pos hq2] at h
        exact coreOut_emit h (by intro n hn; cases hn) hadv2 rfl
      rw [if_neg hq2] at h
      exact coreOut_emit h (by intro n hn; cases hn) hadv1 rfl
  rw [if_neg hb23] at h
  by_cases hb24 : (c == '<') = true
  · rw [if_pos hb24] at h
    cases hq : l.advance.peek_char with
    | error e => rw [hq, bind_error] at h; cases h
    | ok q =>
      rw [hq, bind_ok] at h
      by_cases hq1 : (q == '<') = true
      · rw [if_pos hq1] at h
        exact coreOut_emit h (by intro n hn; cases hn) hadv2 rfl
      rw [if_neg hq1] at h
      exact coreOut_emit h (by intro n hn; cases hn) hadv1 rfl
  rw [if_neg hb24] at h
  by_cases hb25 : (c == '>') = true
  · rw [if_pos hb25] at h
    cases hq : l.advance.peek_char with
    | error e => rw [hq, bind_error] at h; cases h
    | ok q =>
      rw [hq, bind_ok] at h
      by_cases hq1 : (q == '>') = true
      · rw [if_pos hq1] at h
        exact coreOut_emit h (by intro n hn; cases hn) hadv2 rfl
      rw [if_neg hq1] at h
      exact coreOut_emit h (by intro n hn; cases hn) hadv1 rfl
  rw [if_neg hb25] at h
  by_cases hb26 : (c == '#') = true
  · rw [if_pos hb26] at h
    cases hcm : take_comment (l.advance.chars.length + 1) "" l.advance with
    | error e => rw [hcm, bind_error] at h; cases h
    | ok x =>
      obtain ⟨text, lf⟩ := x
      rw [hcm, bind_ok] at h
      dsimp only [] at h
      obtain ⟨hge, hchf, -⟩ := take_comment_mono _ "" l.advance text lf hcm
      exact coreOut_emit h (by intro n hn; cases hn)
        (by simp only [Lexer.advance] at hge; omega) hchf
  rw [if_neg hb26] at h
  by_cases hb27 : (c == '.') = true
  · rw [if_pos hb27] at h
    have hcdot : c = '.' := by simpa using hb27
    subst hcdot
    cases hq : l.advance.peek_char with
    | error e => rw [hq, bind_error] at h; cases h
    | ok q =>
      rw [hq, bind_ok] at h
      by_cases hq1 : isDigitChar q = true
      · rw [if_pos hq1] at h
        have hTN : take_number (l.chars.length + 1) false "" l =
            take_number l.chars.length true ("".push '.') l.advance := by
          rw [take_number_succ, if_neg (chars_left_pos hposlt), peek_char_eq hc,
            bind_ok, if_neg (by decide), if_pos (by decide)]
        rw [hTN] at h
        cases htn : take_number l.chars.length true ("".push '.') l.advance with
        | error e => rw [htn, bind_error] at h; cases h
        | ok x =>
          obtain ⟨t0, lf⟩ := x
          rw [htn, bind_ok] at h
          dsimp only [] at h
          obtain ⟨⟨hge, hchf, -⟩, u, hu⟩ := take_number_mono _ true _ l.advance t0 lf htn
          cases hu with
          | inl h' =>
            subst h'
            exact coreOut_emit h (by intro n hn; cases hn)
              (by simp only [Lexer.advance] at hge; omega) hchf
          | inr h' =>
            subst h'
            exact coreOut_emit h (by intro n hn; cases hn)
              (by simp only [Lexer.advance] at hge; omega) hchf
      rw [if_neg hq1] at h
      exact coreOut_emit h (by intro n hn; cases hn) hadv1 rfl
  rw [if_neg hb27] at h
  by_cases hb28 : isDigitChar c = true
  · rw [if_pos hb28] at h
    have hTN : take_number (l.chars.length + 1) false "" l =
        take_number l.chars.length false ("".push c) l.advance := by
      rw [take_number_succ, if_neg (chars_left_pos hposlt), peek_char_eq hc,
        bind_ok, if_pos (by simp [hb28])]
    rw [hTN] at h
    cases htn : take_number l.chars.length false ("".push c) l.advance with
    | error e => rw [htn, bind_error] at h; cases h
    | ok x =>
      obtain ⟨t0, lf⟩ := x
      rw [htn, bind_ok] at h
      dsimp only [] at h
      obtain ⟨⟨hge, hchf, -⟩, u, hu⟩ := take_number_mono _ false _ l.advance t0 lf htn
      cases hu with
      | inl h' =>
        subst h'
        exact coreOut_emit h (by intro n hn; cases hn)
          (by simp only [Lexer.advance] at hge; omega) hchf
      | inr h' =>
        subst h'
        exact coreOut_emit h (by intro n hn; cases hn)
          (by simp only [Lexer.advance] at hge; omega) hchf
  rw [if_neg hb28] at h
  by_cases hb29 : (c == '\'' || c == '"') = true
  · rw [if_pos hb29] at h
    cases hsl : take_str_lit (l.chars.length + 1) l with
    | error e => rw [hsl, bind_error] at h; cases h
    | ok x =>
      obtain ⟨t0, l'0⟩ := x
      rw [hsl, bind_ok] at h
      dsimp only [] at h
      obtain ⟨⟨hlt, hch0, -⟩, tags, val, htv⟩ := take_str_lit_strict _ _ _ _ hsl
      subst htv
      exact coreOut_emit h (by intro n hn; cases hn) hlt hch0
  rw [if_neg hb29] at h
  cases h

/-- What one successful `next()` call guarantees, by induction over the
skip loop: the buffer is preserved; a produced token strictly advanced the
cursor, and a produced `Indent n` has `n ≥ 1`, was produced with the
start-of-line flag set, and consumed exactly `4n` consecutive spaces
delimited by a non-space character; a `None` return on an in-bounds state
leaves the cursor exactly at the end of the buffer. -/
theorem nextTok_spec :
    ∀ (fu : Nat) (l : Lexer) (o : Option Token) (l' : Lexer),
    nextTok fu l = .ok (o, l') →
    l'.chars = l.chars ∧
    (∀ t, o = some t → l.pos < l'.pos ∧
       (∀ n, t = .Indent n → 1 ≤ n ∧ l.start_of_line = true ∧ ∃ p, l.pos ≤ p ∧
          (∀ i, i < 4 * n → l.chars[p + i]? = some ' ') ∧
          (∃ d, l.chars[p + 4 * n]? = some d ∧ d ≠ ' ') ∧ l'.pos = p + 4 * n)) ∧
    (o = none → l.pos ≤ l.chars.length → l'.pos = l.chars.length) := by
  intro fu
  induction fu with
  | zero => intro l o l' h; cases h
  | succ fu ih =>
    intro l o l' h
    rw [nextTok_succ] at h
    by_cases hz : l.chars_left = 0
    · rw [if_pos hz] at h
      injection h with h'
      cases h'
      refine ⟨rfl, ?_, ?_⟩
      · intro t ht; cases ht
      · intro _ hle
        simp only [Lexer.chars_left] at hz
        omega
    · rw [if_neg hz] at h
      have hlt : l.pos < l.chars.length := by
        simp only [Lexer.chars_left] at hz
        omega
      obtain ⟨c, hc⟩ : ∃ c, l.chars[l.pos]? = some c :=
        ⟨l.chars[l.pos], List.getElem?_eq_getElem hlt⟩
      rw [take_char_eq hc, bind_ok] at h
      dsimp only [] at h
      cases hcore : nextTokCore c l l.advance with
      | error e => rw [hcore, bind_error] at h; cases h
      | ok r =>
        rw [hcore, bind_ok] at h
        have hco := core_spec hc hcore
        cases r with
        | inl x =>
          obtain ⟨t0, l₂⟩ := x
          dsimp only [] at h
          injection h with h'
          cases h'
          obtain ⟨h1, h2, h3⟩ := hco.1 t0 l₂ rfl
          refine ⟨h2, ?_, ?_⟩
          · intro t ht
            injection ht with ht'
            subst ht'
            refine ⟨h1, ?_⟩
            intro n hn
            obtain ⟨hn1, hceq, hsol, hsp, hd, hpos⟩ := h3 n hn
            exact ⟨hn1, hsol, l.pos, le_refl _, hsp, hd, hpos⟩
          · intro ho; cases ho
        | inr l₂ =>
          dsimp only [] at h
          obtain ⟨h1, h2, h3, h4⟩ := hco.2 l₂ rfl
          obtain ⟨ih1, ih2, ih3⟩ := ih l₂ o l' h
          refine ⟨by rw [ih1, h2], ?_, ?_⟩
          · intro t ht
            obtain ⟨ihp, ihind⟩ := ih2 t ht
            refine ⟨by omega, ?_⟩
            intro n hn
            obtain ⟨hn1, hsol₂, p, hple, hsp, hd, hpos⟩ := ihind n hn
            rw [h2] at hsp hd
            exact ⟨hn1, by rw [← h4]; exact hsol₂, p, by omega, hsp, hd, hpos⟩
          · intro ho _
            have := ih3 ho (by rw [h2]; exact h3)
            rw [this, h2]

/-! ## Claim C7: indentation invariant -/

/-- C7: (1) every `Indent n` emitted by a successful `next()` call has
`n ≥ 1`, is produced with the start-of-line flag set, and corresponds to a
run of exactly `4n` consecutive spaces in the buffer (delimited by a
non-space character) that the call consumed; (2) a single leading space at
the start of a logical line is discarded — the call continues exactly as
if it had started after the space, emitting no token for it; (3) a
leading-space run of length not divisible by four is a fatal
`badIndent` error. -/
theorem C7_indent_exact :
    (∀ (fu : Nat) (l : Lexer) (n : Nat) (l' : Lexer),
       nextTok fu l = .ok (some (.Indent n), l') →
       1 ≤ n ∧ l.start_of_line = true ∧ ∃ p, l.pos ≤ p ∧
         (∀ i, i < 4 * n → l.chars[p + i]? = some ' ') ∧
         (∃ d, l.chars[p + 4 * n]? = some d ∧ d ≠ ' ') ∧ l'.pos = p + 4 * n) ∧
    (∀ (fu : Nat) (l : Lexer) (c : Char), l.start_of_line = true →
       l.chars[l.pos]? = some ' ' → l.chars[l.pos + 1]? = some c → c ≠ ' ' →
       nextTok (fu + 1) l = nextTok fu l.advance) ∧
    (∀ (fu : Nat) (l : Lexer) (len : Nat) (c : Char), l.start_of_line = true →
       2 ≤ len → len % 4 ≠ 0 →
       (∀ i, i < len → l.chars[l.pos + i]? = some ' ') →
       l.chars[l.pos + len]? = some c → c ≠ ' ' →
       nextTok (fu + 1) l = .error (.badIndent len)) := by
  refine ⟨?_, ?_, ?_⟩
  · intro fu l n l' h
    obtain ⟨-, h2, -⟩ := nextTok_spec fu l (some (.Indent n)) l' h
    exact ((h2 (.Indent n) rfl).2 n rfl)
  · intro fu l c hsol hs0 hs1 hcne
    rw [nextTok_succ, if_neg (chars_left_pos (lt_length_of_getElem? hs0)),
      take_char_eq hs0, bind_ok]
    dsimp only []
    rw [show nextTokCore ' ' l l.advance =
        (take_spaces (l.advance.chars.length + 1) 1 l.advance >>= fun x =>
          match x with
          | (count, l2) =>
            if count = 1 then .ok (.inr l2)
            else if count % 4 ≠ 0 then .error (.badIndent count)
            else .ok (.inl (.Indent (count / 4), l2))) from by
      unfold nextTokCore
      rw [if_pos (show ((' ' == ' ') && l.start_of_line) = true by rw [hsol]; rfl)]]
    rw [take_spaces_run 0 (l.advance.chars.length + 1) 1 l.advance c
      (by intro i hi; omega)
      (by simp only [Lexer.advance, Nat.add_zero]; exact hs1)
      hcne (by omega), bind_ok]
    dsimp only []
    rw [if_pos (show (1 + 0 : Nat) = 1 from rfl), bind_ok]
    rfl
  · intro fu l len c hsol hlen2 hlen4 hsp hc hcne
    have hs0 : l.chars[l.pos]? = some ' ' := by
      have := hsp 0 (by omega)
      simpa using this
    rw [nextTok_succ, if_neg (chars_left_pos (lt_length_of_getElem? hs0)),
      take_char_eq hs0, bind_ok]
    dsimp only []
    rw [show nextTokCore ' ' l l.advance =
        (take_spaces (l.advance.chars.length + 1) 1 l.advance >>= fun x =>
          match x with
          | (count, l2) =>
            if count = 1 then .ok (.inr l2)
            else if count % 4 ≠ 0 then .error (.badIndent count)
            else .ok (.inl (.Indent (count / 4), l2))) from by
      unfold nextTokCore
      rw [if_pos (show ((' ' == ' ') && l.start_of_line) = true by rw [hsol]; rfl)]]
    rw [take_spaces_run (len - 1) (l.advance.chars.length + 1) 1 l.advance c
      (by
        intro i hi
        simp only [Lexer.advance]
        rw [show l.pos + 1 + i = l.pos + (i + 1) from by omega]
        exact hsp (i + 1) (by omega))
      (by
        simp only [Lexer.advance]
        rw [show l.pos + 1 + (len - 1) = l.pos + len from by omega]
        exact hc)
      hcne
      (by
        have := lt_length_of_getElem? hc
        simp only [Lexer.advance]
        omega), bind_ok]
    dsimp only []
    rw [show 1 + (len - 1) = len from by omega,
      if_neg (show ¬(len = 1) by omega), if_pos hlen4, bind_error]

/-- C7 witness: on `"    x"` the first call emits `Indent 1` after exactly
four spaces; on `" x"` the single leading space is skipped; on `"  x"` the
two-space run is the fatal `badIndent 2` error. -/
theorem C7_witness :
    (1 ≤ 1 ∧ (Lexer.new "    x".data).start_of_line = true ∧
      ∃ p, (Lexer.new "    x".data).pos ≤ p ∧
        (∀ i, i < 4 * 1 → (Lexer.new "    x".data).chars[p + i]? = some ' ') ∧
        (∃ d, (Lexer.new "    x".data).chars[p + 4 * 1]? = some d ∧ d ≠ ' ') ∧
        (⟨"    x".data, 4, false⟩ : Lexer).pos = p + 4 * 1) ∧
    nextTok 3 (Lexer.new " x".data) = nextTok 2 (Lexer.new " x".data).advance ∧
    nextTok 3 (Lexer.new "  x".data) = .error (.badIndent 2) := by
  refine ⟨C7_indent_exact.1 2 (Lexer.new "    x".data) 1 ⟨"    x".data, 4, false⟩ rfl,
    C7_indent_exact.2.1 2 (Lexer.new " x".data) 'x' rfl (by decide) (by decide)
      (by decide),
    C7_indent_exact.2.2 2 (Lexer.new "  x".data) 2 'x' rfl (by decide) (by decide)
      (by decide) (by decide) (by decide)⟩

/-! ## Claim C10: cursor progress and exhaustion -/

/-- C10: any `next()` call that produces a token strictly advances the
cursor (and preserves the buffer); a `None` return from an in-bounds state
leaves the cursor exactly at the buffer length; and a call on an exhausted
state (`pos` equal to the input length) immediately returns `None` without
moving — so iteration always terminates on inputs where no scan error
occurs. -/
theorem C10_progress_exhaustion :
    (∀ (fu : Nat) (l : Lexer) (t : Token) (l' : Lexer),
       nextTok fu l = .ok (some t, l') → l.pos < l'.pos ∧ l'.chars = l.chars) ∧
    (∀ (fu : Nat) (l l' : Lexer),
       nextTok fu l = .ok (none, l') → l.pos ≤ l.chars.length →
       l'.pos = l.chars.length ∧ l'.chars = l.chars) ∧
    (∀ (fu : Nat) (l : Lexer), l.pos = l.chars.length →
       nextTok (fu + 1) l = .ok (none, l)) := by
  refine ⟨?_, ?_, ?_⟩
  · intro fu l t l' h
    obtain ⟨h1, h2, -⟩ := nextTok_spec fu l (some t) l' h
    exact ⟨(h2 t rfl).1, h1⟩
  · intro fu l l' h hle
    obtain ⟨h1, -, h3⟩ := nextTok_spec fu l none l' h
    exact ⟨h3 rfl hle, h1⟩
  · intro fu l hp
    rw [nextTok_succ, if_pos (chars_left_zero (by omega))]

/-- C10 witness: the three parts at concrete states of the inputs `x)`,
`" "` and `x`. -/
theorem C10_witness :
    ((Lexer.new "x)".data).pos < (⟨"x)".data, 1, false⟩ : Lexer).pos ∧
      (⟨"x)".data, 1, false⟩ : Lexer).chars = (Lexer.new "x)".data).chars) ∧
    ((⟨" ".data, 1, false⟩ : Lexer).pos = (⟨" ".data, 0, false⟩ : Lexer).chars.length ∧
      (⟨" ".data, 1, false⟩ : Lexer).chars = (⟨" ".data, 0, false⟩ : Lexer).chars) ∧
    nextTok 4 (⟨"x".data, 1, true⟩ : Lexer) = .ok (none, ⟨"x".data, 1, true⟩) := by
  refine ⟨C10_progress_exhaustion.1 3 (Lexer.new "x)".data) (.Ident "x")
      ⟨"x)".data, 1, false⟩ rfl,
    C10_progress_exhaustion.2.1 2 ⟨" ".data, 0, false⟩ ⟨" ".data, 1, false⟩ rfl
      (by decide),
    C10_progress_exhaustion.2.2 3 ⟨"x".data, 1, true⟩ (by decide)⟩

/-! ## Serialized text of token sequences -/

theorem writeAll_data (ts : List Token) : (writeAll ts).data = writeAllData ts := by
  unfold writeAll writeAllData
  rw [String.data_join, List.map_map]
  rfl

theorem indent_write_data (n : Nat) :
    (Token.write (.Indent n)).data = List.replicate (4 * n) ' ' := by
  show (String.join (List.replicate n "    ")).data = _
  rw [String.data_join]
  induction n with
  | zero => rfl
  | succ n ih =>
    rw [List.replicate_succ, List.map_cons, List.flatten_cons, ih,
      show 4 * (n + 1) = 4 + 4 * n from by ring, List.replicate_add]
    rfl

/-! ## Running the scanner loops over known buffer segments -/

theorem take_ident_loop_run :
    ∀ (w : List Char) (fu : Nat) (C : List Char) (p : Nat) (f : Bool)
      (d : Char) (R : List Char),
    w.all isIdentChar = true → isIdentChar d = false →
    C.drop p = w ++ d :: R → w.length < fu →
    take_ident_loop fu ⟨C, p, f⟩ = .ok ⟨C, p + w.length, f⟩ := by
  intro w
  induction w with
  | nil =>
    intro fu C p f d R _ hd hdrop hfu
    obtain ⟨fu', rfl⟩ : ∃ fu', fu = fu' + 1 := ⟨fu - 1, by omega⟩
    obtain ⟨hget, -⟩ := drop_cons (show C.drop p = d :: R by simpa using hdrop)
    rw [take_ident_loop_succ, peek_char_eq hget, bind_ok, if_neg (by simp [hd])]
    rfl
  | cons c w' ih =>
    intro fu C p f d R hall hd hdrop hfu
    obtain ⟨fu', rfl⟩ : ∃ fu', fu = fu' + 1 := ⟨fu - 1, by omega⟩
    obtain ⟨hget, hdrop'⟩ := drop_cons
      (show C.drop p = c :: (w' ++ d :: R) by simpa using hdrop)
    simp only [List.all_cons, Bool.and_eq_true] at hall
    rw [take_ident_loop_succ, peek_char_eq hget, bind_ok, if_pos hall.1,
      show (⟨C, p, f⟩ : Lexer).advance = ⟨C, p + 1, f⟩ from rfl,
      ih fu' C (p + 1) f d R hall.2 hd hdrop' (by simp at hfu; omega)]
    simp only [Except.ok.injEq, Lexer.mk.injEq, List.length_cons, true_and, and_true]
    omega

theorem take_ident_run {w : List Char} {d : Char} {C R : List Char} {p : Nat}
    {f : Bool} (fu : Nat) (hne : w ≠ []) (hall : w.all isIdentChar = true)
    (hd : isIdentChar d = false) (hdrop : C.drop p = w ++ d :: R)
    (hfu : w.length < fu) :
    take_ident fu ⟨C, p, f⟩ = .ok (w, ⟨C, p + w.length, f⟩) := by
  unfold take_ident
  rw [take_ident_loop_run w fu C p f d R hall hd hdrop hfu, bind_ok,
    if_neg (show ¬((⟨C, p + w.length, f⟩ : Lexer).pos = (⟨C, p, f⟩ : Lexer).pos) by
      have := List.length_pos.mpr hne
      simp only []
      omega)]
  rw [show (⟨C, p, f⟩ : Lexer).chars = C from rfl,
    show (⟨C, p, f⟩ : Lexer).pos = p from rfl,
    show (⟨C, p + w.length, f⟩ : Lexer).pos = p + w.length from rfl,
    hdrop, show p + w.length - p = w.length from by omega, List.take_left]

theorem take_number_run :
    ∀ (u : List Char) (fu : Nat) (float : Bool) (out : String) (C : List Char)
      (p : Nat) (f : Bool) (d : Char) (R : List Char),
    u.all isNumOrDot = true → isNumOrDot d = false →
    C.drop p = u ++ d :: R → u.length < fu →
    take_number fu float out ⟨C, p, f⟩ =
      .ok (numTok (float || u.any (fun c => c == '.')) (out ++ String.mk u),
           ⟨C, p + u.length, f⟩) := by
  intro u
  induction u with
  | nil =>
    intro fu float out C p f d R _ hd hdrop hfu
    obtain ⟨fu', rfl⟩ : ∃ fu', fu = fu' + 1 := ⟨fu - 1, by omega⟩
    obtain ⟨hget, -⟩ := drop_cons (show C.drop p = d :: R by simpa using hdrop)
    have hz : (⟨C, p, f⟩ : Lexer).chars_left ≠ 0 :=
      chars_left_pos (lt_length_of_getElem? hget)
    have hd' : isNumLitChar d = false ∧ (d == '.') = false := by
      simpa [isNumOrDot, Bool.or_eq_false_iff] using hd
    rw [take_number_succ, if_neg hz, peek_char_eq hget, bind_ok,
      if_neg (show ¬((isDigitChar d || d == 'x' || d == 'b') = true) by
        simpa [isNumLitChar] using hd'.1),
      if_neg (by simp [hd'.2])]
    have h1 : out ++ String.mk [] = out := string_ext (by simp)
    rw [h1, show (float || List.any [] (fun c => c == '.')) = float by simp]
    rfl
  | cons c u' ih =>
    intro fu float out C p f d R hall hd hdrop hfu
    obtain ⟨fu', rfl⟩ : ∃ fu', fu = fu' + 1 := ⟨fu - 1, by omega⟩
    obtain ⟨hget, hdrop'⟩ := drop_cons
      (show C.drop p = c :: (u' ++ d :: R) by simpa using hdrop)
    have hz : (⟨C, p, f⟩ : Lexer).chars_left ≠ 0 :=
      chars_left_pos (lt_length_of_getElem? hget)
    simp only [List.all_cons, Bool.and_eq_true] at hall
    have hs : (out.push c) ++ String.mk u' = out ++ String.mk (c :: u') :=
      string_ext (by simp [String.push])
    by_cases hcl : isNumLitChar c = true
    · have hcd : (c == '.') = false := by
        refine beq_false_of_ne ?_
        intro he
        rw [he] at hcl
        exact absurd hcl (by decide)
      rw [take_number_succ, if_neg hz, peek_char_eq hget, bind_ok,
        if_pos (show (isDigitChar c || c == 'x' || c == 'b') = true from hcl),
        show (⟨C, p, f⟩ : Lexer).advance = ⟨C, p + 1, f⟩ from rfl,
        ih fu' float (out.push c) C (p + 1) f d R hall.2 hd hdrop'
          (by simp at hfu; omega), hs]
      rw [show (float || List.any u' (fun c => c == '.')) =
          (float || List.any (c :: u') (fun c => c == '.')) by
        simp [List.any_cons, hcd]]
      simp only [Except.ok.injEq, Prod.mk.injEq, Lexer.mk.injEq, List.length_cons,
        true_and, and_true]
      omega
    · have hcd : (c == '.') = true := by
        have := hall.1
        simp only [isNumOrDot, Bool.or_eq_true] at this
        rcases this with h' | h'
        · exact absurd h' hcl
        · exact h'
      rw [take_number_succ, if_neg hz, peek_char_eq hget, bind_ok,
        if_neg (show ¬((isDigitChar c || c == 'x' || c == 'b') = true) by
          simpa [isNumLitChar] using hcl),
        if_pos hcd,
        show (⟨C, p, f⟩ : Lexer).advance = ⟨C, p + 1, f⟩ from rfl,
        ih fu' true (out.push c) C (p + 1) f d R hall.2 hd hdrop'
          (by simp at hfu; omega), hs]
      rw [show (true || List.any u' (fun c => c == '.')) =
          (float || List.any (c :: u') (fun c => c == '.')) by
        simp [List.any_cons, hcd]]
      simp only [Except.ok.injEq, Prod.mk.injEq, Lexer.mk.injEq, List.length_cons,
        true_and, and_true]
      omega

/-! ## The canonical token classes, related to the scanner -/

theorem parse_ident_eq_ident {s : String} (h : (parse_ident s).isIdentTok = true) :
    parse_ident s = .Ident s := by
  revert h
  unfold parse_ident
  split <;> intro h <;> first | rfl | exact absurd h (by decide)

theorem numTok_not_newline (b : Bool) (s : String) :
    (numTok b s).isNewLine = false := by
  cases b <;> rfl

theorem isNewLine_eq {t : Token} (h : t.isNewLine = true) : t = .NewLine := by
  cases t <;> first | rfl | exact absurd h (by simp [Token.isNewLine])

theorem wordlike_cases {t : Token} (h : wordlike t = true) :
    (∃ w, (Token.write t).data = w ++ [' '] ∧ validIdentChars w = true ∧
       parse_ident (String.mk w) = t) ∨
    (∃ u, (Token.write t).data = u ++ [' '] ∧ u.all isNumOrDot = true ∧
       (∃ c cs, u = c :: cs ∧ (isDigitChar c = true ∨
          (c = '.' ∧ ∃ d ds, cs = d :: ds ∧ isDigitChar d = true))) ∧
       numTok (u.any (fun c => c == '.')) (String.mk u) = t) := by
  cases t
  case Ident s =>
    simp only [wordlike, Bool.and_eq_true] at h
    exact Or.inl ⟨s.data, rfl, h.1, parse_ident_eq_ident h.2⟩
  case IntLit s =>
    simp only [wordlike] at h
    refine Or.inr ⟨s.data, rfl, ?_, ?_, ?_⟩
    · cases hsd : s.data with
      | nil => rw [hsd] at h; exact absurd h (by decide)
      | cons c cs =>
        rw [hsd] at h
        simp only [validIntChars, Bool.and_eq_true] at h
        rw [List.all_eq_true] at h ⊢
        intro x hx
        have := h.2 x hx
        simp only [isNumOrDot, this, Bool.true_or]
    · cases hsd : s.data with
      | nil => rw [hsd] at h; exact absurd h (by decide)
      | cons c cs =>
        rw [hsd] at h
        simp only [validIntChars, Bool.and_eq_true] at h
        exact ⟨c, cs, rfl, Or.inl h.1⟩
    · have hnodot : s.data.any (fun c => c == '.') = false := by
        cases hany : s.data.any (fun c => c == '.') with
        | false => rfl
        | true =>
          rw [List.any_eq_true] at hany
          obtain ⟨x, hx, hxe⟩ := hany
          have hx' : x = '.' := by simpa using hxe
          subst hx'
          cases hsd : s.data with
          | nil => rw [hsd] at hx; cases hx
          | cons c cs =>
            rw [hsd] at h hx
            simp only [validIntChars, Bool.and_eq_true] at h
            have := (List.all_eq_true.mp h.2) '.' hx
            exact absurd this (by decide)
      rw [hnodot]
      show Token.IntLit (String.mk s.data) = Token.IntLit s
      rw [show String.mk s.data = s from rfl]
  case FloatLit s =>
    simp only [wordlike] at h
    cases hsd : s.data with
    | nil => rw [hsd] at h; exact absurd h (by decide)
    | cons c cs =>
      rw [hsd] at h
      simp only [validFloatChars, Bool.and_eq_true] at h
      obtain ⟨⟨hhead, hall⟩, hany⟩ := h
      refine Or.inr ⟨s.data, rfl, by rw [hsd]; exact hall, ?_, ?_⟩
      · refine ⟨c, cs, hsd, ?_⟩
        rw [Bool.or_eq_true] at hhead
        rcases hhead with h' | h'
        · exact Or.inl h'
        · rw [Bool.and_eq_true] at h'
          refine Or.inr ⟨by simpa using h'.1, ?_⟩
          cases hcs : cs with
          | nil => rw [hcs] at h'; exact absurd h'.2 (by simp)
          | cons d ds =>
            rw [hcs] at h'
            exact ⟨d, ds, rfl, h'.2⟩
      · rw [hsd, hany]
        show Token.FloatLit (String.mk (c :: cs)) = Token.FloatLit s
        rw [show String.mk (c :: cs) = s from by rw [← hsd]]
  case BooleanLit b =>
    have hb : b = true := by simpa [wordlike] using h
    subst hb
    exact Or.inl ⟨"True".data, rfl, by decide, rfl⟩
  case And => exact Or.inl ⟨"and".data, rfl, by decide, rfl⟩
  case As => exact Or.inl ⟨"as".data, rfl, by decide, rfl⟩
  case Assert => exact Or.inl ⟨"assert".data, rfl, by decide, rfl⟩
  case Break => exact Or.inl ⟨"break".data, rfl, by decide, rfl⟩
  case Class => exact Or.inl ⟨"class".data, rfl, by decide, rfl⟩
  case Continue => exact Or.inl ⟨"continue".data, rfl, by decide, rfl⟩
  case Def => exact Or.inl ⟨"def".data, rfl, by decide, rfl⟩
  case Del => exact Or.inl ⟨"del".data, rfl, by decide, rfl⟩
  case Elif => exact Or.inl ⟨"elif".data, rfl, by decide, rfl⟩
  case Except => exact Or.inl ⟨"except".data, rfl, by decide, rfl⟩
  case Finally => exact Or.inl ⟨"finally".data, rfl, by decide, rfl⟩
  case For => exact Or.inl ⟨"for".data, rfl, by decide, rfl⟩
  case From => exact Or.inl ⟨"from".data, rfl, by decide, rfl⟩
  case Global => exact Or.inl ⟨"global".data, rfl, by decide, rfl⟩
  case If => exact Or.inl ⟨"if".data, rfl, by decide, rfl⟩
  case Import => exact Or.inl ⟨"import".data, rfl, by decide, rfl⟩
  case In => exact Or.inl ⟨"in".data, rfl, by decide, rfl⟩
  case Is => exact Or.inl ⟨"is".data, rfl, by decide, rfl⟩
  case Lambda => exact Or.inl ⟨"lambda".data, rfl, by decide, rfl⟩
  case None => exact Or.inl ⟨"None".data, rfl, by decide, rfl⟩
  case Nonlocal => exact Or.inl ⟨"nonlocal".data, rfl, by decide, rfl⟩
  case Not => exact Or.inl ⟨"not".data, rfl, by decide, rfl⟩
  case Or => exact Or.inl ⟨"or".data, rfl, by decide, rfl⟩
  case Pass => exact Or.inl ⟨"pass".data, rfl, by decide, rfl⟩
  case Raise => exact Or.inl ⟨"raise".data, rfl, by decide, rfl⟩
  case Return => exact Or.inl ⟨"return".data, rfl, by decide, rfl⟩
  case Try => exact Or.inl ⟨"try".data, rfl, by decide, rfl⟩
  case While => exact Or.inl ⟨"while".data, rfl, by decide, rfl⟩
  case With => exact Or.inl ⟨"with".data, rfl, by decide, rfl⟩
  case Yield => exact Or.inl ⟨"yield".data, rfl, by decide, rfl⟩
  all_goals (simp only [wordlike] at h; exact Bool.noConfusion h)

theorem safePunct_cases {t : Token} (h : safePunct t = true) :
    ∃ c, (Token.write t).data = [c] ∧
      (c, t) ∈ [('(', Token.LeftParen), (')', Token.RightParen),
        ('{', Token.LeftCurly), ('}', Token.RightCurly),
        ('[', Token.LeftSquare), (']', Token.RightSquare),
        (';', Token.SemiColon), (',', Token.Comma)] := by
  cases t
  case LeftParen => exact ⟨'(', rfl, by simp⟩
  case RightParen => exact ⟨')', rfl, by simp⟩
  case LeftCurly => exact ⟨'{', rfl, by simp⟩
  case RightCurly => exact ⟨'}', rfl, by simp⟩
  case LeftSquare => exact ⟨'[', rfl, by simp⟩
  case RightSquare => exact ⟨']', rfl, by simp⟩
  case SemiColon => exact ⟨';', rfl, by simp⟩
  case Comma => exact ⟨',', rfl, by simp⟩
  all_goals (simp only [safePunct] at h; exact Bool.noConfusion h)

theorem goodSeqAux_cons {sol : Bool} {t : Token} {rest : List Token}
    (h : goodSeqAux sol (t :: rest) = true) :
    (∃ n, t = .Indent n ∧ sol = true ∧ 1 ≤ n ∧
       (∃ r rest', rest = r :: rest' ∧ r.isIndent = false) ∧
       goodSeqAux false rest = true) ∨
    (t = .NewLine ∧ goodSeqAux true rest = true) ∨
    ((wordlike t || safePunct t) = true ∧ t.isNewLine = false ∧
       goodSeqAux false rest = true) := by
  cases t
  case Indent n =>
    left
    cases rest with
    | nil => exact absurd h (by simp [goodSeqAux])
    | cons r rest' =>
      have h' : (sol && decide (1 ≤ n) && !r.isIndent &&
          goodSeqAux false (r :: rest')) = true := h
      simp only [Bool.and_eq_true, decide_eq_true_eq, Bool.not_eq_true'] at h'
      exact ⟨n, rfl, h'.1.1.1, h'.1.1.2, ⟨r, rest', rfl, h'.1.2⟩, h'.2⟩
  case NewLine =>
    right; left
    exact ⟨rfl, h⟩
  all_goals
    right; right
    simp only [goodSeqAux, Bool.and_eq_true] at h
    exact ⟨h.1, rfl, h.2⟩

theorem good_head_write {t : Token} {rest : List Token} {sol : Bool}
    (h : goodSeqAux sol (t :: rest) = true) (hni : t.isIndent = false) :
    ∃ c cs, (Token.write t).data = c :: cs ∧ c ≠ ' ' := by
  rcases goodSeqAux_cons h with ⟨n, hn, -⟩ | ⟨hn, -⟩ | ⟨hcl, -, -⟩
  · rw [hn] at hni; exact absurd hni (by simp [Token.isIndent])
  · exact ⟨'\n', [], by rw [hn]; rfl, by decide⟩
  · rw [Bool.or_eq_true] at hcl
    rcases hcl with hw | hp
    · rcases wordlike_cases hw with ⟨w, hwd, hv, -⟩ | ⟨u, hud, -, ⟨c, cs, hcu, hentry⟩, -⟩
      · cases w with
        | nil => exact absurd hv (by decide)
        | cons c cs =>
          refine ⟨c, cs ++ [' '], by rw [hwd]; rfl, ?_⟩
          simp only [validIdentChars, Bool.and_eq_true] at hv
          intro he
          rw [he] at hv
          exact absurd hv.1 (by decide)
      · subst hcu
        refine ⟨c, cs ++ [' '], by rw [hud]; rfl, ?_⟩
        rcases hentry with hd | ⟨hd, -⟩
        · intro he
          rw [he] at hd
          exact absurd hd (by decide)
        · rw [hd]
          decide
    · obtain ⟨c, hcd, hmem⟩ := safePunct_cases hp
      refine ⟨c, [], hcd, ?_⟩
      fin_cases hmem <;> decide

/-! ## Entry dispatch of the scanner match for character classes -/

theorem core_alpha_entry {c : Char} (l l1 : Lexer) (h : isAlphaChar c = true) :
    nextTokCore c l l1 =
      (l1.peek_char >>= fun q =>
        if q == '\'' || q == '"' then
          take_str_lit (l.chars.length + 1) l >>= fun x =>
            match x with
            | (t, l') => .ok (.inl (t, l'))
        else
          take_ident (l.chars.length + 1) l >>= fun x =>
            match x with
            | (w, l') => .ok (.inl (parse_ident (String.mk w), l'))) := by
  have hno : ∀ d : Char, isAlphaChar d = false → (c == d) = false := by
    intro d hd
    refine beq_false_of_ne ?_
    intro he
    rw [← he, h] at hd
    cases hd
  have h3 : isAsciiWhitespace c = false := by
    simp only [isAsciiWhitespace, hno ' ' (by decide), hno '\t' (by decide),
      hno '\n' (by decide), hno '\x0C' (by decide), hno '\r' (by decide),
      Bool.or_false]
  unfold nextTokCore
  rw [if_neg (by simp [hno ' ' (by decide)]), if_neg (by simp [hno '\n' (by decide)]),
    if_neg (by simp [h3]), if_pos h]

theorem core_digit_entry {c : Char} (l l1 : Lexer) (h : isDigitChar c = true) :
    nextTokCore c l l1 =
      (take_number (l.chars.length + 1) false "" l >>= fun x =>
        match x with
        | (t, l') => .ok (.inl (t, l'))) := by
  have hno : ∀ d : Char, isDigitChar d = false → (c == d) = false := by
    intro d hd
    refine beq_false_of_ne ?_
    intro he
    rw [← he, h] at hd
    cases hd
  have h'' : c ≤ '9' ∧ '0' ≤ c := by
    simpa [isDigitChar, Bool.and_eq_true, decide_eq_true_eq] using h
  have h' : '0' ≤ c ∧ c ≤ '9' := ⟨h''.2, h''.1⟩
  have halpha : isAlphaChar c = false := by
    have ha : ¬('a' ≤ c) := fun hle => absurd (le_trans hle h'.2) (by decide)
    have hA : ¬('A' ≤ c) := fun hle => absurd (le_trans hle h'.2) (by decide)
    simp [isAlphaChar, ha, hA]
  have h3 : isAsciiWhitespace c = false := by
    simp only [isAsciiWhitespace, hno ' ' (by decide), hno '\t' (by decide),
      hno '\n' (by decide), hno '\x0C' (by decide), hno '\r' (by decide),
      Bool.or_false]
  unfold nextTokCore
  rw [if_neg (by simp [hno ' ' (by decide)]), if_neg (by simp [hno '\n' (by decide)]),
    if_neg (by simp [h3]), if_neg (by simp [halpha]),
    if_neg (by simp [hno '_' (by decide)]),
    if_neg (by simp [hno '(' (by decide)]), if_neg (by simp [hno ')' (by decide)]),
    if_neg (by simp [hno '{' (by decide)]), if_neg (by simp [hno '}' (by decide)]),
    if_neg (by simp [hno '[' (by decide)]), if_neg (by simp [hno ']' (by decide)]),
    if_neg (by simp [hno ':' (by decide)]), if_neg (by simp [hno ';' (by decide)]),
    if_neg (by simp [hno ',' (by decide)]), if_neg (by simp [hno '&' (by decide)]),
    if_neg (by simp [hno '|' (by decide)]), if_neg (by simp [hno '-' (by decide)]),
    if_neg (by simp [hno '+' (by decide)]), if_neg (by simp [hno '%' (by decide)]),
    if_neg (by simp [hno '=' (by decide)]), if_neg (by simp [hno '!' (by decide)]),
    if_neg (by simp [hno '/' (by decide)]), if_neg (by simp [hno '*' (by decide)]),
    if_neg (by simp [hno '<' (by decide)]), if_neg (by simp [hno '>' (by decide)]),
    if_neg (by simp [hno '#' (by decide)]), if_neg (by simp [hno '.' (by decide)]),
    if_pos h]

/-! ## One `next()` call on the serialization of each canonical token -/

theorem step_newline {C R : List Char} {p : Nat} {f : Bool}
    (hdrop : C.drop p = '\n' :: R) (fu : Nat) :
    nextTok (fu + 1) ⟨C, p, f⟩ = .ok (some .NewLine, ⟨C, p + 1, true⟩) := by
  obtain ⟨hget, -⟩ := drop_cons hdrop
  rw [nextTok_succ, if_neg (chars_left_pos (lt_length_of_getElem? hget)),
    take_char_eq hget, bind_ok]
  rfl

theorem step_skip {C R : List Char} {p : Nat}
    (hdrop : C.drop p = ' ' :: R) (fu : Nat) :
    nextTok (fu + 1) ⟨C, p, false⟩ = nextTok fu ⟨C, p + 1, false⟩ := by
  obtain ⟨hget, -⟩ := drop_cons hdrop
  rw [nextTok_succ, if_neg (chars_left_pos (lt_length_of_getElem? hget)),
    take_char_eq hget, bind_ok]
  rfl

theorem step_punct {c : Char} {t : Token}
    (hm : (c, t) ∈ [('(', Token.LeftParen), (')', Token.RightParen),
      ('{', Token.LeftCurly), ('}', Token.RightCurly),
      ('[', Token.LeftSquare), (']', Token.RightSquare),
      (';', Token.SemiColon), (',', Token.Comma)])
    {C R : List Char} {p : Nat} {f : Bool}
    (hdrop : C.drop p = c :: R) (fu : Nat) :
    nextTok (fu + 1) ⟨C, p, f⟩ = .ok (some t, ⟨C, p + 1, false⟩) := by
  obtain ⟨hget, -⟩ := drop_cons hdrop
  fin_cases hm <;>
  · rw [nextTok_succ, if_neg (chars_left_pos (lt_length_of_getElem? hget)),
      take_char_eq hget, bind_ok]
    rfl

theorem step_word {C R w : List Char} {p : Nat} {f : Bool} {t : Token}
    (hw : validIdentChars w = true)
    (hpi : parse_ident (String.mk w) = t)
    (hdrop : C.drop p = w ++ ' ' :: R) (fu : Nat) :
    nextTok (fu + 1) ⟨C, p, f⟩ = .ok (some t, ⟨C, p + w.length, t.isNewLine⟩) := by
  cases w with
  | nil => exact absurd hw (by decide)
  | cons c w' =>
    simp only [validIdentChars, Bool.and_eq_true] at hw
    obtain ⟨hget, hdrop'⟩ := drop_cons
      (show C.drop p = c :: (w' ++ ' ' :: R) by simpa using hdrop)
    have hlen : (c :: w').length < C.length + 1 := by
      have h1 := congrArg List.length hdrop
      simp only [List.length_drop, List.length_append, List.length_cons] at h1
      simp only [List.length_cons]
      omega
    rw [nextTok_succ, if_neg (chars_left_pos (lt_length_of_getElem? hget)),
      take_char_eq hget, bind_ok]
    dsimp only []
    rcases (show isAlphaChar c = true ∨ c = '_' by
        have h1 := hw.1
        rw [Bool.or_eq_true] at h1
        simpa using h1) with halpha | hund
    · rw [show (⟨C, p, f⟩ : Lexer).advance = ⟨C, p + 1, f⟩ from rfl,
        core_alpha_entry ⟨C, p, f⟩ ⟨C, p + 1, f⟩ halpha]
      have hq : ∃ q, C[p + 1]? = some q ∧ (isIdentChar q = true ∨ q = ' ') := by
        cases w' with
        | nil => exact ⟨' ', (drop_cons (by simpa using hdrop')).1, Or.inr rfl⟩
        | cons c2 w'' =>
          refine ⟨c2, (drop_cons (by simpa using hdrop')).1, Or.inl ?_⟩
          have h2 := hw.2
          simp only [List.all_cons, Bool.and_eq_true] at h2
          exact h2.2.1
      obtain ⟨q, hqget, hqcl⟩ := hq
      have hqquote : (q == '\'' || q == '"') = false := by
        rcases hqcl with hid | hsp
        · have hq1 : (q == '\'') = false := beq_false_of_ne (by
            intro he; rw [he] at hid; exact absurd hid (by decide))
          have hq2 : (q == '"') = false := beq_false_of_ne (by
            intro he; rw [he] at hid; exact absurd hid (by decide))
          simp [hq1, hq2]
        · subst hsp; decide
      rw [peek_char_eq (show (⟨C, p + 1, f⟩ : Lexer).chars[(⟨C, p + 1, f⟩ : Lexer).pos]?
          = some q from hqget), bind_ok, if_neg (by simp [hqquote]),
        take_ident_run (C.length + 1) (by simp) hw.2 (by decide) hdrop hlen, bind_ok]
      dsimp only []
      rw [hpi, bind_ok]
    · have hc : c = '_' := by simpa using hund
      subst hc
      rw [show (⟨C, p, f⟩ : Lexer).advance = ⟨C, p + 1, f⟩ from rfl,
        show nextTokCore '_' ⟨C, p, f⟩ ⟨C, p + 1, f⟩ =
          (take_ident ((⟨C, p, f⟩ : Lexer).chars.length + 1) ⟨C, p, f⟩ >>= fun x =>
            match x with
            | (w, l') => .ok (.inl (parse_ident (String.mk w), l'))) from rfl,
        take_ident_run (C.length + 1) (by simp) hw.2 (by decide) hdrop hlen, bind_ok]
      dsimp only []
      rw [hpi, bind_ok]

theorem step_number {C R u : List Char} {p : Nat} {f : Bool}
    (hall : u.all isNumOrDot = true)
    (hentry : ∃ c cs, u = c :: cs ∧ (isDigitChar c = true ∨
       (c = '.' ∧ ∃ d ds, cs = d :: ds ∧ isDigitChar d = true)))
    (hdrop : C.drop p = u ++ ' ' :: R) (fu : Nat) :
    nextTok (fu + 1) ⟨C, p, f⟩ =
      .ok (some (numTok (u.any (fun c => c == '.')) (String.mk u)),
           ⟨C, p + u.length, false⟩) := by
  obtain ⟨c, cs, rfl, hentry⟩ := hentry
  obtain ⟨hget, hdrop'⟩ := drop_cons
    (show C.drop p = c :: (cs ++ ' ' :: R) by simpa using hdrop)
  have hlen : (c :: cs).length < C.length + 1 := by
    have h1 := congrArg List.length hdrop
    simp only [List.length_drop, List.length_append, List.length_cons] at h1
    simp only [List.length_cons]
    omega
  rw [nextTok_succ, if_neg (chars_left_pos (lt_length_of_getElem? hget)),
    take_char_eq hget, bind_ok]
  dsimp only []
  have hfin : ∀ lf : Lexer,
      (Except.ok (Sum.inl (numTok ((c :: cs).any (fun c => c == '.'))
          (String.mk (c :: cs)), lf)) :
        Except LexError (Token × Lexer ⊕ Lexer)) >>=
        (fun r =>
          match r with
          | .inl (t, l') =>
              (.ok (some t, { l' with start_of_line := t.isNewLine }) :
                Except LexError (Option Token × Lexer))
          | .inr l2 => nextTok fu l2) =
      .ok (some (numTok ((c :: cs).any (fun c => c == '.')) (String.mk (c :: cs))),
        { lf with start_of_line := false }) := by
    intro lf
    rw [bind_ok]
    dsimp only []
    rw [numTok_not_newline]
  rcases hentry with hdig | ⟨hdot, d, ds, hcs, hd⟩
  · rw [core_digit_entry _ _ hdig,
      take_number_run (c :: cs) (C.length + 1) false "" C p f ' ' R hall (by decide)
        hdrop hlen, bind_ok]
    dsimp only []
    rw [show ("" ++ String.mk (c :: cs)) = String.mk (c :: cs) from
        string_ext (by simp),
      show (false || (c :: cs).any (fun c => c == '.')) =
        (c :: cs).any (fun c => c == '.') from by simp]
    exact hfin ⟨C, p + (c :: cs).length, f⟩
  · subst hdot
    subst hcs
    rw [show (⟨C, p, f⟩ : Lexer).advance = ⟨C, p + 1, f⟩ from rfl,
      show nextTokCore '.' ⟨C, p, f⟩ ⟨C, p + 1, f⟩ =
        ((⟨C, p + 1, f⟩ : Lexer).peek_char >>= fun q =>
          if isDigitChar q then
            take_number ((⟨C, p, f⟩ : Lexer).chars.length + 1) false "" ⟨C, p, f⟩ >>=
              fun x =>
              match x with
              | (t, l') => .ok (.inl (t, l'))
          else .ok (.inl (.Dot, ⟨C, p + 1, f⟩))) from rfl]
    obtain ⟨hget2, -⟩ := drop_cons
      (show C.drop (p + 1) = d :: (ds ++ ' ' :: R) by simpa using hdrop')
    rw [peek_char_eq (show (⟨C, p + 1, f⟩ : Lexer).chars[(⟨C, p + 1, f⟩ : Lexer).pos]?
        = some d from hget2), bind_ok, if_pos hd,
      take_number_run ('.' :: d :: ds) (C.length + 1) false "" C p f ' ' R hall
        (by decide) hdrop hlen, bind_ok]
    dsimp only []
    rw [show ("" ++ String.mk ('.' :: d :: ds)) = String.mk ('.' :: d :: ds) from
        string_ext (by simp),
      show (false || ('.' :: d :: ds).any (fun c => c == '.')) =
        ('.' :: d :: ds).any (fun c => c == '.') from by simp]
    exact hfin ⟨C, p + ('.' :: d :: ds).length, f⟩

theorem step_indent {C R : List Char} {p n : Nat} {d : Char} (hn : 1 ≤ n)
    (hdrop : C.drop p = List.replicate (4 * n) ' ' ++ d :: R) (hd : d ≠ ' ')
    (fu : Nat) :
    nextTok (fu + 1) ⟨C, p, true⟩ = .ok (some (.Indent n), ⟨C, p + 4 * n, false⟩) := by
  have hsp : ∀ i, i < 4 * n → C[p + i]? = some ' ' := by
    intro i hi
    have h1 : (C.drop p)[i]? = some ' ' := by
      rw [hdrop, List.getElem?_append, if_pos (by simpa using hi),
        List.getElem?_replicate, if_pos hi]
    rw [List.getElem?_drop] at h1
    exact h1
  have hb : C[p + 4 * n]? = some d := by
    have h1 : (C.drop p)[4 * n]? = some d := by
      rw [hdrop, List.getElem?_append, if_neg (by simp),
        show 4 * n - (List.replicate (4 * n) ' ').length = 0 by simp]
      simp
    rw [List.getElem?_drop] at h1
    exact h1
  have hs0 : C[p]? = some ' ' := by
    have := hsp 0 (by omega)
    simpa using this
  rw [nextTok_succ, if_neg (chars_left_pos (lt_length_of_getElem? hs0)),
    take_char_eq hs0, bind_ok]
  dsimp only []
  rw [show (⟨C, p, true⟩ : Lexer).advance = ⟨C, p + 1, true⟩ from rfl,
    show nextTokCore ' ' ⟨C, p, true⟩ ⟨C, p + 1, true⟩ =
      (take_spaces ((⟨C, p + 1, true⟩ : Lexer).chars.length + 1) 1 ⟨C, p + 1, true⟩ >>=
        fun x =>
        match x with
        | (count, l2) =>
          if count = 1 then .ok (.inr l2)
          else if count % 4 ≠ 0 then .error (.badIndent count)
          else .ok (.inl (.Indent (count / 4), l2))) from rfl,
    take_spaces_run (4 * n - 1) (C.length + 1) 1 ⟨C, p + 1, true⟩ d
      (by
        intro i hi
        show C[p + 1 + i]? = some ' '
        rw [show p + 1 + i = p + (i + 1) from by omega]
        exact hsp (i + 1) (by omega))
      (by
        show C[p + 1 + (4 * n - 1)]? = some d
        rw [show p + 1 + (4 * n - 1) = p + 4 * n from by omega]
        exact hb)
      hd
      (by
        have := lt_length_of_getElem? hb
        show 4 * n - 1 < C.length + 1
        omega), bind_ok]
  dsimp only []
  rw [show 1 + (4 * n - 1) = 4 * n from by omega,
    if_neg (show ¬(4 * n = 1) by omega),
    if_neg (show ¬(4 * n % 4 ≠ 0) by simp [Nat.mul_mod_right]),
    show 4 * n / 4 = n from by omega, bind_ok]
  dsimp only []
  show (Except.ok (some (Token.Indent n), _) : Except LexError (Option Token × Lexer)) = _
  simp only [Except.ok.injEq, Prod.mk.injEq, Lexer.mk.injEq, true_and, and_true]
  constructor
  · show p + 1 + (4 * n - 1) = p + 4 * n
    omega
  · rfl

/-! ## Scanning a whole serialized canonical sequence -/

theorem good_length_le :
    ∀ (ts : List Token) (sol : Bool), goodSeqAux sol ts = true →
      ts.length ≤ (writeAllData ts).length := by
  intro ts
  induction ts with
  | nil => intro sol _; simp [writeAllData]
  | cons t rest ih =>
    intro sol h
    have hwd : (writeAllData (t :: rest)).length =
        (Token.write t).data.length + (writeAllData rest).length := by
      simp [writeAllData]
    have hpos : 1 ≤ (Token.write t).data.length := by
      rcases goodSeqAux_cons h with ⟨n, rfl, -, hn1, -, -⟩ | ⟨rfl, -⟩ | ⟨hcl, -, -⟩
      · rw [indent_write_data]
        simp
        omega
      · simp [Token.write]
      · have hni : t.isIndent = false := by
          cases t <;> first | rfl | exact absurd hcl (by simp [wordlike, safePunct])
        obtain ⟨c, cs, hw, -⟩ := good_head_write h hni
        rw [hw]
        simp
    have hrest : rest.length ≤ (writeAllData rest).length := by
      rcases goodSeqAux_cons h with ⟨n, rfl, -, -, -, hr⟩ | ⟨rfl, hr⟩ | ⟨-, -, hr⟩
      · exact ih false hr
      · exact ih true hr
      · exact ih false hr
    rw [hwd]
    simp only [List.length_cons]
    omega

theorem scanAux_good :
    ∀ (ts : List Token) (sol : Bool) (C : List Char) (p : Nat) (f : Bool)
      (pend : List Char) (fu : Nat),
    goodSeqAux sol ts = true →
    C.drop p = pend ++ writeAllData ts →
    ((pend = [] ∧ f = sol) ∨ (pend = [' '] ∧ f = false ∧ sol = false)) →
    ts.length < fu →
    scanAux fu ⟨C, p, f⟩ = .ok ts := by
  intro ts
  induction ts with
  | nil =>
    intro sol C p f pend fu _ hdrop hinv hfu
    obtain ⟨fu', rfl⟩ : ∃ fu', fu = fu' + 1 := ⟨fu - 1, by omega⟩
    rcases hinv with ⟨hp, -⟩ | ⟨hp, hf, -⟩
    · subst hp
      have hle : C.length ≤ p :=
        List.drop_eq_nil_iff.mp (by simpa [writeAllData] using hdrop)
      exact scanAux_done fu' _ hle
    · subst hp
      subst hf
      have hdrop' : C.drop p = ' ' :: ([] : List Char) := by
        simpa [writeAllData] using hdrop
      rw [scanAux_succ,
        show (⟨C, p, false⟩ : Lexer).chars.length = C.length from rfl,
        step_skip hdrop' C.length]
      have h1 : C.length = p + 1 := by
        have ha := List.drop_eq_nil_iff.mp (drop_cons hdrop').2
        have hb := lt_length_of_getElem? (drop_cons hdrop').1
        omega
      rw [h1, nextTok_succ,
        if_pos (chars_left_zero (show C.length ≤ p + 1 from by omega)), bind_ok]
  | cons t rest ih =>
    intro sol C p f pend fu hgood hdrop hinv hfu
    obtain ⟨fu', rfl⟩ : ∃ fu', fu = fu' + 1 := ⟨fu - 1, by omega⟩
    have hwd : writeAllData (t :: rest) = (Token.write t).data ++ writeAllData rest := by
      simp [writeAllData]
    rw [hwd] at hdrop
    have hfu' : rest.length < fu' := by
      simp only [List.length_cons] at hfu
      omega
    rcases goodSeqAux_cons hgood with
      ⟨n, rfl, hsol, hn1, ⟨r, rest', hr, hrni⟩, hrest⟩ | ⟨rfl, hrest⟩ | ⟨hcl, hnl, hrest⟩
    · -- an Indent token
      rcases hinv with ⟨hp, hf⟩ | ⟨-, -, hsolf⟩
      · subst hp
        have hf' : f = true := by rw [hf, hsol]
        subst hf'
        subst hr
        obtain ⟨c0, cs0, hw0, hc0⟩ := good_head_write hrest hrni
        have hdrop2 : C.drop p =
            List.replicate (4 * n) ' ' ++ c0 :: (cs0 ++ writeAllData rest') := by
          rw [hdrop, indent_write_data]
          have : writeAllData (r :: rest') = (c0 :: cs0) ++ writeAllData rest' := by
            simp [writeAllData, hw0]
          rw [this]
          simp
        apply scanAux_step fu'
        · show nextTok (C.length + 1) (⟨C, p, true⟩ : Lexer) = _
          exact step_indent hn1 hdrop2 hc0 C.length
        · apply ih false C (p + 4 * n) false [] fu' hrest ?_ (Or.inl ⟨rfl, rfl⟩) hfu'
          have h2 : (C.drop p).drop (4 * n) = C.drop (p + 4 * n) := by
            rw [List.drop_drop]
          have h3 : (List.replicate (4 * n) ' ' ++
              (c0 :: (cs0 ++ writeAllData rest'))).drop (4 * n) =
              c0 :: (cs0 ++ writeAllData rest') := by
            have h4 := List.drop_left (List.replicate (4 * n) ' ')
              (c0 :: (cs0 ++ writeAllData rest'))
            simp only [List.length_replicate] at h4
            exact h4
          rw [← h2, hdrop2, h3]
          simp [writeAllData, hw0]
      · rw [hsol] at hsolf
        cases hsolf
    · -- a NewLine token
      rcases hinv with ⟨hp, -⟩ | ⟨hp, hf, -⟩
      · subst hp
        have hdrop2 : C.drop p = '\n' :: writeAllData rest := by simpa using hdrop
        apply scanAux_step fu'
        · show nextTok (C.length + 1) (⟨C, p, f⟩ : Lexer) = _
          exact step_newline hdrop2 C.length
        · exact ih true C (p + 1) true [] fu' hrest
            (by simpa using (drop_cons hdrop2).2) (Or.inl ⟨rfl, rfl⟩) hfu'
      · subst hp
        subst hf
        have hdrop1 : C.drop p = ' ' :: ('\n' :: writeAllData rest) := by
          simpa using hdrop
        apply scanAux_step fu'
        · show nextTok (C.length + 1) (⟨C, p, false⟩ : Lexer) = _
          rw [step_skip hdrop1 C.length]
          obtain ⟨m, hm⟩ : ∃ m, C.length = m + 1 :=
            ⟨C.length - 1, by have := lt_length_of_getElem? (drop_cons hdrop1).1; omega⟩
          rw [hm]
          exact step_newline (drop_cons hdrop1).2 m
        · refine ih true C (p + 1 + 1) true [] fu' hrest ?_ (Or.inl ⟨rfl, rfl⟩) hfu'
          have h3 := (drop_cons (drop_cons hdrop1).2).2
          simpa using h3
    · -- a word-like or punctuation token
      rw [Bool.or_eq_true] at hcl
      rcases hcl with hword | hpunct
      · rcases wordlike_cases hword with ⟨w, hwdd, hv, hpi⟩ | ⟨u, hud, hall, hen, hnum⟩
        · -- identifier-like word
          rcases hinv with ⟨hp, -⟩ | ⟨hp, hf, -⟩
          · subst hp
            have hdrop2 : C.drop p = w ++ ' ' :: writeAllData rest := by
              rw [hdrop, hwdd]
              simp
            apply scanAux_step fu'
            · show nextTok (C.length + 1) (⟨C, p, f⟩ : Lexer) = _
              exact step_word hv hpi hdrop2 C.length
            · rw [hnl]
              apply ih false C (p + w.length) false [' '] fu' hrest ?_
                (Or.inr ⟨rfl, rfl, rfl⟩) hfu'
              have h2 : (C.drop p).drop w.length = C.drop (p + w.length) := by
                rw [List.drop_drop]
              rw [← h2, hdrop2]
              rw [show w.length = w.length from rfl]
              have h3 : (w ++ ' ' :: writeAllData rest).drop w.length =
                  ' ' :: writeAllData rest := List.drop_left w _
              rw [h3]
              rfl
          · subst hp
            subst hf
            have hdrop1 : C.drop p = ' ' :: (w ++ ' ' :: writeAllData rest) := by
              rw [hdrop, hwdd]
              simp
            apply scanAux_step fu'
            · show nextTok (C.length + 1) (⟨C, p, false⟩ : Lexer) = _
              rw [step_skip hdrop1 C.length]
              obtain ⟨m, hm⟩ : ∃ m, C.length = m + 1 :=
                ⟨C.length - 1, by
                  have := lt_length_of_getElem? (drop_cons hdrop1).1; omega⟩
              rw [hm]
              exact step_word hv hpi (drop_cons hdrop1).2 m
            · rw [hnl]
              apply ih false C (p + 1 + w.length) false [' '] fu' hrest ?_
                (Or.inr ⟨rfl, rfl, rfl⟩) hfu'
              have h2 : (C.drop (p + 1)).drop w.length = C.drop (p + 1 + w.length) := by
                rw [List.drop_drop]
              rw [← h2, (drop_cons hdrop1).2]
              have h3 : (w ++ ' ' :: writeAllData rest).drop w.length =
                  ' ' :: writeAllData rest := List.drop_left w _
              rw [h3]
              rfl
        · -- number-like word
          rcases hinv with ⟨hp, -⟩ | ⟨hp, hf, -⟩
          · subst hp
            have hdrop2 : C.drop p = u ++ ' ' :: writeAllData rest := by
              rw [hdrop, hud]
              simp
            apply scanAux_step fu'
            · show nextTok (C.length + 1) (⟨C, p, f⟩ : Lexer) =
                .ok (some t, ⟨C, p + u.length, false⟩)
              rw [← hnum]
              exact step_number hall hen hdrop2 C.length
            · apply ih false C (p + u.length) false [' '] fu' hrest ?_
                (Or.inr ⟨rfl, rfl, rfl⟩) hfu'
              have h2 : (C.drop p).drop u.length = C.drop (p + u.length) := by
                rw [List.drop_drop]
              rw [← h2, hdrop2]
              have h3 : (u ++ ' ' :: writeAllData rest).drop u.length =
                  ' ' :: writeAllData rest := List.drop_left u _
              rw [h3]
              rfl
          · subst hp
            subst hf
            have hdrop1 : C.drop p = ' ' :: (u ++ ' ' :: writeAllData rest) := by
              rw [hdrop, hud]
              simp
            apply scanAux_step fu'
            · show nextTok (C.length + 1) (⟨C, p, false⟩ : Lexer) = _
              rw [step_skip hdrop1 C.length]
              obtain ⟨m, hm⟩ : ∃ m, C.length = m + 1 :=
                ⟨C.length - 1, by
                  have := lt_length_of_getElem? (drop_cons hdrop1).1; omega⟩
              rw [hm, ← hnum]
              exact step_number hall hen (drop_cons hdrop1).2 m
            · apply ih false C (p + 1 + u.length) false [' '] fu' hrest ?_
                (Or.inr ⟨rfl, rfl, rfl⟩) hfu'
              have h2 : (C.drop (p + 1)).drop u.length = C.drop (p + 1 + u.length) := by
                rw [List.drop_drop]
              rw [← h2, (drop_cons hdrop1).2]
              have h3 : (u ++ ' ' :: writeAllData rest).drop u.length =
                  ' ' :: writeAllData rest := List.drop_left u _
              rw [h3]
              rfl
      · -- safe punctuation
        obtain ⟨c, hcd, hmem⟩ := safePunct_cases hpunct
        rcases hinv with ⟨hp, -⟩ | ⟨hp, hf, -⟩
        · subst hp
          have hdrop2 : C.drop p = c :: writeAllData rest := by
            rw [hdrop, hcd]
            simp
          apply scanAux_step fu'
          · show nextTok (C.length + 1) (⟨C, p, f⟩ : Lexer) = _
            exact step_punct hmem hdrop2 C.length
          · exact ih false C (p + 1) false [] fu' hrest
              (by simpa using (drop_cons hdrop2).2) (Or.inl ⟨rfl, rfl⟩) hfu'
        · subst hp
          subst hf
          have hdrop1 : C.drop p = ' ' :: (c :: writeAllData rest) := by
            rw [hdrop, hcd]
            simp
          apply scanAux_step fu'
          · show nextTok (C.length + 1) (⟨C, p, false⟩ : Lexer) = _
            rw [step_skip hdrop1 C.length]
            obtain ⟨m, hm⟩ : ∃ m, C.length = m + 1 :=
              ⟨C.length - 1, by
                have := lt_length_of_getElem? (drop_cons hdrop1).1; omega⟩
            rw [hm]
            exact step_punct hmem (drop_cons hdrop1).2 m
          · refine ih false C (p + 1 + 1) false [] fu' hrest ?_
              (Or.inl ⟨rfl, rfl⟩) hfu'
            have h3 := (drop_cons (drop_cons hdrop1).2).2
            simpa using h3

/-! ## Claim C1: round-trip of serialized token sequences -/

/-- C1 (counterexample): the valid input `else x` followed by a newline
scans to `[Else, Ident "x", NewLine]`, but serializing that sequence gives
`elsex \n` — the `else` arm of `write_to` takes no trailing space, so the
keyword merges with the following identifier — and re-scanning yields the
inequivalent sequence `[Ident "elsex", NewLine]`. -/
theorem C1_counterexample :
    scan "else x\n" = .ok [.Else, .Ident "x", .NewLine] ∧
    writeAll [.Else, .Ident "x", .NewLine] = "elsex \n" ∧
    scan (writeAll [.Else, .Ident "x", .NewLine]) = .ok [.Ident "elsex", .NewLine] ∧
    ([Token.Ident "elsex", Token.NewLine] ≠
      [Token.Else, Token.Ident "x", Token.NewLine]) := by
  refine ⟨rfl, rfl, rfl, ?_⟩
  intro hcon
  injection hcon with h1 h2
  cases h1

/-- C1 (amended): serializing and re-scanning is the identity on canonical
token sequences: every token is word-like (`Ident`/keyword except `Else`/
`IntLit`/`FloatLit`/`BooleanLit true` with the spellings the scanner can
produce), lookahead-free punctuation, `NewLine`, or an `Indent n` with
`n ≥ 1` placed at a line start and followed by a non-`Indent` token.
Excluded (each refuted by a counterexample of this development or of the
scanner's behaviour): `Comment`/`StrLit` (excluded by the claim itself),
`Else` (merges with a following word), the operator/angle/dot/colon family
(adjacent operators re-combine, e.g. `Minus RightAngle` rescans as
`ThinArrow`, and a trailing operator makes the scanner peek past the end of
the buffer), `DoubleAmpersand`/`DoublePipe` (serialized as `and `/`or `,
which rescan as the `And`/`Or` keywords) and `BooleanLit false` (never
produced and serialized as `False `, which rescans as `BooleanLit true`). -/
theorem C1_round_trip (ts : List Token) (h : goodSeq ts = true) :
    scan (writeAll ts) = .ok ts := by
  show scanAux ((writeAll ts).length + 1) (Lexer.new (writeAll ts).data) = .ok ts
  rw [show Lexer.new (writeAll ts).data =
    (⟨(writeAll ts).data, 0, true⟩ : Lexer) from rfl, writeAll_data]
  have h1 : (writeAll ts).length = (writeAllData ts).length := by
    rw [show (writeAll ts).length = (writeAll ts).data.length from rfl, writeAll_data]
  rw [h1]
  exact scanAux_good ts true (writeAllData ts) 0 true [] ((writeAllData ts).length + 1)
    h (by simp) (Or.inl ⟨rfl, rfl⟩)
    (by have := good_length_le ts true h; omega)

/-- C1 witness: the canonical sequence for `if x` / indented `y` round
trips exactly through `write_to` and a fresh scan. -/
theorem C1_witness :
    goodSeq [Token.If, .Ident "x", .NewLine, .Indent 1, .Ident "y", .NewLine] = true ∧
    scan (writeAll [Token.If, .Ident "x", .NewLine, .Indent 1, .Ident "y", .NewLine]) =
      .ok [Token.If, .Ident "x", .NewLine, .Indent 1, .Ident "y", .NewLine] :=
  ⟨rfl, C1_round_trip _ rfl⟩

end P3
